import Mathlib

/-!
Verification development for the message-deletion engine in src/main.py.

The remote side (the Telegram client) is modelled as an oracle: a list of
outcomes, one per remote delete invocation, consumed in order.  Pure state
(the stats counters, the per-chat accumulator sets) is threaded explicitly.
A computation returns none exactly when the supplied oracle is too short to
cover every remote call the code would make.
-/

namespace TCleaner

/-- Mutable counters of the script (src/main.py, the stats dictionary,
lines 65-80).  Only the counters the engine mutates are kept. -/
@[ext]
structure Stats where
  total_checked_api : Nat := 0
  total_found_own : Nat := 0
  total_found_other : Nat := 0
  deleted_for_me : Nat := 0
  deleted_for_all : Nat := 0
  failed_to_delete_own : Nat := 0
  failed_revoke_but_deleted_for_me : Nat := 0
  attempted_delete_other : Nat := 0
  failed_to_delete_other : Nat := 0
  chats_processed : Nat := 0
  chats_failed : Nat := 0
  deriving DecidableEq

/-- The stats dictionary at process start: every counter zero. -/
def initialStats : Stats := {}

/-- Outcome of one remote delete_messages invocation, as classified by the
except clauses of delete_batch_own_messages (src/main.py lines 242-313):
success, asyncio timeout, MessageDeleteForbidden, FloodWait with wait value,
MessageIdsInvalid, or any other exception. -/
inductive DeleteOutcome where
  | ok
  | timeout
  | forbidden
  | floodWait (w : Nat)
  | idsInvalid
  | otherError
  deriving DecidableEq

/-- One remote delete_messages invocation: the id set passed and the revoke
flag passed. -/
structure DelCall where
  ids : List Int
  revoke : Bool
  deriving DecidableEq

/-- Result of a run of delete_batch_own_messages: the boolean it returns, the
stats after it, the remote delete calls it issued in order, the sleep
durations it performed in order, and the unconsumed oracle suffix. -/
structure DelRes where
  success : Bool
  stats : Stats
  calls : List DelCall
  sleeps : List Nat
  rest : List DeleteOutcome
  deriving DecidableEq

/-- Stats update on a successful batch delete (src/main.py lines 255-258):
deleted_for_all grows by the batch size when revoke, else deleted_for_me. -/
def bumpDeleted (revoke : Bool) (n : Nat) (s : Stats) : Stats :=
  if revoke then { s with deleted_for_all := s.deleted_for_all + n }
  else { s with deleted_for_me := s.deleted_for_me + n }

/-- Stats update on a failed batch (the timeout, forbidden-without-revoke,
MessageIdsInvalid and generic except branches): failed_to_delete_own grows by
the batch size. -/
def bumpFailedOwn (n : Nat) (s : Stats) : Stats :=
  { s with failed_to_delete_own := s.failed_to_delete_own + n }

/-- Shallow embedding of delete_batch_own_messages (src/main.py lines
206-313).  An empty id list trivially succeeds.  Otherwise one oracle
outcome is consumed for the remote call: on ok the per-mode deleted counter
grows by the batch size; on timeout, MessageIdsInvalid or a generic error the
batch is failed; on MessageDeleteForbidden with revoke the same id list is
recursively re-attempted with revoke false, the returned boolean is the
fallback result, and the caller additionally bumps
failed_revoke_but_deleted_for_me (fallback succeeded) or
failed_to_delete_own (fallback failed) by the batch size; on
MessageDeleteForbidden without revoke the batch is failed; on FloodWait w
the code sleeps w + 5 seconds and re-invokes itself with the identical id
list and revoke flag. -/
def delete_batch_own_messages :
    List Int → Bool → List DeleteOutcome → Stats → Option DelRes
  | [], _, oracle, s => some ⟨true, s, [], [], oracle⟩
  | _ :: _, _, [], _ => none
  | i :: is, revoke, o :: rest, s =>
    match o with
    | .ok =>
        some ⟨true, bumpDeleted revoke (i :: is).length s,
              [⟨i :: is, revoke⟩], [], rest⟩
    | .timeout =>
        some ⟨false, bumpFailedOwn (i :: is).length s,
              [⟨i :: is, revoke⟩], [], rest⟩
    | .forbidden =>
        if revoke then
          match delete_batch_own_messages (i :: is) false rest s with
          | none => none
          | some r =>
              let s' :=
                if r.success then
                  { r.stats with failed_revoke_but_deleted_for_me :=
                      r.stats.failed_revoke_but_deleted_for_me + (i :: is).length }
                else
                  bumpFailedOwn (i :: is).length r.stats
              some ⟨r.success, s', ⟨i :: is, revoke⟩ :: r.calls, r.sleeps, r.rest⟩
        else
          some ⟨false, bumpFailedOwn (i :: is).length s,
                [⟨i :: is, revoke⟩], [], rest⟩
    | .floodWait w =>
        match delete_batch_own_messages (i :: is) revoke rest s with
        | none => none
        | some r =>
            some ⟨r.success, r.stats, ⟨i :: is, revoke⟩ :: r.calls,
                  (w + 5) :: r.sleeps, r.rest⟩
    | .idsInvalid =>
        some ⟨false, bumpFailedOwn (i :: is).length s,
              [⟨i :: is, revoke⟩], [], rest⟩
    | .otherError =>
        some ⟨false, bumpFailedOwn (i :: is).length s,
              [⟨i :: is, revoke⟩], [], rest⟩

/-- Shallow embedding of attempt_delete_other_message (src/main.py lines
316-359).  The attempted_delete_other counter is bumped at every entry
(also on each FloodWait re-entry, as in the source); the remote call always
passes the single message id with revoke true; expected refusals and generic
errors bump failed_to_delete_other; FloodWait w sleeps w + 5 and re-invokes
with the same arguments.  Returns the stats, the remote delete calls issued,
the sleeps performed, and the unconsumed oracle. -/
def attempt_delete_other_message :
    Int → List DeleteOutcome → Stats →
      Option (Stats × List DelCall × List Nat × List DeleteOutcome)
  | _, [], _ => none
  | message_id, o :: rest, s =>
    let s1 := { s with attempted_delete_other := s.attempted_delete_other + 1 }
    match o with
    | .ok => some (s1, [⟨[message_id], true⟩], [], rest)
    | .floodWait w =>
        match attempt_delete_other_message message_id rest s1 with
        | none => none
        | some (s2, calls, sleeps, rest2) =>
            some (s2, ⟨[message_id], true⟩ :: calls, (w + 5) :: sleeps, rest2)
    | _ =>
        some ({ s1 with failed_to_delete_other := s1.failed_to_delete_other + 1 },
              [⟨[message_id], true⟩], [], rest)

/-- One record yielded by the remote message search, as the loop in main
examines it (src/main.py lines 573-591): ok is false when the object is
falsy, lacks an id attribute or lacks a from_user (such hits are skipped
before any counting); idIsInt mirrors the isinstance check on the id;
msgId and author are the id value and the from_user id. -/
structure Hit where
  ok : Bool
  idIsInt : Bool
  msgId : Int
  author : Int
  deriving DecidableEq

/-- Fault a keyword search iteration can raise after yielding some hits, as
classified by the except clauses around the search loop (src/main.py lines
654-686): FloodWait (sleep and move to the next keyword), an access error
(skip the whole chat), SearchQueryEmpty (skip the keyword), or any other
error (skip the whole chat). -/
inductive SearchFault where
  | floodWait (w : Nat)
  | access
  | queryEmpty
  | other
  deriving DecidableEq

/-- The remote search result for one keyword in one chat: the keyword (by
index), the hits the iterator yields, and an optional fault raised after
those hits. -/
structure KeywordSearch where
  keyword : Nat
  hits : List Hit
  fault : Option SearchFault
  deriving DecidableEq

/-- Observable events of one chat's processing, in order: a search hit
examined by the message loop, a batch submission to
delete_batch_own_messages (with the submitted id list, the revoke flag, and
whether it is the final per-chat flush rather than a mid-search threshold
flush), and a single-message foreign deletion attempt. -/
inductive Event where
  | hit (h : Hit)
  | ownBatch (ids : List Int) (revoke : Bool) (final : Bool)
  | foreignAttempt (msgId : Int)
  deriving DecidableEq

/-- State of one chat's processing: the own-id accumulator (insertion
order, duplicates never added, mirroring the Python set), the foreign
(id, keyword) accumulator, the stats, the event trace, the remaining
oracle, and the chat_processing_error flag. -/
@[ext]
structure LoopState where
  own : List Int
  other : List (Int × Nat)
  stats : Stats
  trace : List Event
  oracle : List DeleteOutcome
  error : Bool
  deriving DecidableEq

/-- Ascending sort of an id list; the embedding of the Python
sorted(list(own_ids_to_delete)). -/
def sortInts (l : List Int) : List Int := List.insertionSort (· ≤ ·) l

/-- Ascending sort of the foreign (id, keyword) pairs by message id; the
embedding of sorted(list(other_ids_to_delete), key by first component). -/
def sortPairs (l : List (Int × Nat)) : List (Int × Nat) :=
  List.insertionSort (fun a b => a.1 ≤ b.1) l

/-- Set-style insertion: append the id unless already present. -/
def addOwn (acc : List Int) (i : Int) : List Int :=
  if i ∈ acc then acc else acc ++ [i]

/-- Set-style insertion of every id of a list in order. -/
def dedupAppend (acc : List Int) : List Int → List Int
  | [] => acc
  | i :: is => dedupAppend (addOwn acc i) is

/-- How many ids of the list are new relative to the accumulator, counting
each distinct id once. -/
def countNew (acc : List Int) : List Int → Nat
  | [] => 0
  | i :: is => (if i ∈ acc then 0 else 1) + countNew (addOwn acc i) is

/-- Shallow embedding of the body of the message loop for one search hit
(src/main.py lines 573-641).  Invalid hits are skipped before counting;
hits with a non-integer or non-positive id are counted as checked and then
skipped; a hit authored by the operator adds its id to the own accumulator
when new (counting it in total_found_own); a hit authored by someone else
is, in delete-for-everyone mode inside a private chat, added to the foreign
accumulator when its id is new; finally, when the own accumulator holds at
least 100 ids, the sorted accumulator is submitted to
delete_batch_own_messages with revoke equal to the selected mode, and on
success the accumulator is cleared while on failure the chat is marked
failed and the loop breaks. -/
def pushHitEvent (h : Hit) (st : LoopState) : LoopState :=
  { st with trace := st.trace ++ [Event.hit h] }

def markChecked (st : LoopState) : LoopState :=
  { st with stats :=
    { st.stats with total_checked_api := st.stats.total_checked_api + 1 } }

/-- Classification of a valid hit (src/main.py lines 593-613): the
operator's own new message id goes to the own accumulator (counted in
total_found_own), a foreign message in a private chat in delete-for-everyone
mode goes to the foreign accumulator when its id is new (counted in
total_found_other), anything else is ignored. -/
def classifyHit (myId : Int) (dfe isPrivate : Bool) (kw : Nat) (h : Hit)
    (st : LoopState) : LoopState :=
  if h.author = myId then
    if h.msgId ∈ st.own then st
    else
      { st with
        own := st.own ++ [h.msgId]
        stats := { st.stats with
          total_found_own := st.stats.total_found_own + 1 } }
  else if dfe = true ∧ isPrivate = true then
    if h.msgId ∈ st.other.map Prod.fst then st
    else
      { st with
        other := st.other ++ [(h.msgId, kw)]
        stats := { st.stats with
          total_found_other := st.stats.total_found_other + 1 } }
  else st

/-- The mid-search threshold flush (src/main.py lines 615-638): when the
own accumulator holds at least 100 ids, submit the sorted accumulator with
revoke equal to the selected mode; on success clear the accumulator, on
failure mark the chat failed. -/
def thresholdFlush (dfe : Bool) (st : LoopState) : Option LoopState :=
  if 100 ≤ st.own.length then
    match delete_batch_own_messages (sortInts st.own) dfe st.oracle st.stats with
    | none => none
    | some r =>
        let st3 :=
          { st with
            stats := r.stats
            oracle := r.rest
            trace := st.trace ++ [Event.ownBatch (sortInts st.own) dfe false] }
        if r.success then some { st3 with own := [] }
        else some { st3 with error := true }
  else some st

def processOneHit (myId : Int) (dfe isPrivate : Bool) (kw : Nat) (h : Hit)
    (st : LoopState) : Option LoopState :=
  let st0 := pushHitEvent h st
  if h.ok = false then some st0
  else
    let st1 := markChecked st0
    if h.idIsInt = false ∨ h.msgId ≤ 0 then some st1
    else thresholdFlush dfe (classifyHit myId dfe isPrivate kw h st1)

/-- The message loop over the hits one keyword search yields: process hits
in order, stopping as soon as a failed threshold flush marks the chat
failed (the break in src/main.py line 638). -/
def processHits (myId : Int) (dfe isPrivate : Bool) (kw : Nat) :
    List Hit → LoopState → Option LoopState
  | [], st => some st
  | h :: hs, st =>
    match processOneHit myId dfe isPrivate kw h st with
    | none => none
    | some st' =>
        if st'.error then some st'
        else processHits myId dfe isPrivate kw hs st'

/-- One keyword's search (src/main.py lines 564-686): run the message loop
over the yielded hits; when the loop broke on a failed flush the fault
point is never reached; otherwise a FloodWait or SearchQueryEmpty fault
moves on to the next keyword while an access error or an unexpected error
marks the chat failed. -/
def processKeyword (myId : Int) (dfe isPrivate : Bool) (k : KeywordSearch)
    (st : LoopState) : Option LoopState :=
  match processHits myId dfe isPrivate k.keyword k.hits st with
  | none => none
  | some st' =>
    if st'.error then some st'
    else
      match k.fault with
      | none => some st'
      | some (SearchFault.floodWait _) => some st'
      | some SearchFault.queryEmpty => some st'
      | some SearchFault.access => some { st' with error := true }
      | some SearchFault.other => some { st' with error := true }

/-- The keyword loop (src/main.py lines 555-686): keywords in order,
breaking before the next keyword once the chat is marked failed. -/
def processKeywords (myId : Int) (dfe isPrivate : Bool) :
    List KeywordSearch → LoopState → Option LoopState
  | [], st => some st
  | k :: ks, st =>
    match processKeyword myId dfe isPrivate k st with
    | none => none
    | some st' =>
        if st'.error then some st'
        else processKeywords myId dfe isPrivate ks st'

/-- Sequential single-message foreign deletion attempts (src/main.py lines
695-699), one attempt per accumulated pair. -/
def processForeign : List (Int × Nat) → LoopState → Option LoopState
  | [], st => some st
  | (mid, _) :: rest, st =>
    match attempt_delete_other_message mid st.oracle st.stats with
    | none => none
    | some (s', _, _, o') =>
        processForeign rest
          { st with
            stats := s'
            oracle := o'
            trace := st.trace ++ [Event.foreignAttempt mid] }

/-- The foreign-deletion phase after the keyword loop (src/main.py lines
688-702): runs only when the foreign accumulator is non-empty and the chat
is not marked failed, over the pairs sorted by message id. -/
def foreignPhase (st : LoopState) : Option LoopState :=
  if st.other.isEmpty || st.error then some st
  else processForeign (sortPairs st.other) st

/-- The final per-chat flush of the own accumulator (src/main.py lines
704-722): runs only when the accumulator is non-empty and the chat is not
marked failed; submits the sorted accumulator with revoke equal to the
selected mode; failure marks the chat failed. -/
def finalFlushPhase (dfe : Bool) (st : LoopState) : Option LoopState :=
  if st.own.isEmpty || st.error then some st
  else
    match delete_batch_own_messages (sortInts st.own) dfe st.oracle st.stats with
    | none => none
    | some r =>
        let st' :=
          { st with
            stats := r.stats
            oracle := r.rest
            trace := st.trace ++ [Event.ownBatch (sortInts st.own) dfe true] }
        if r.success then some { st' with own := [] }
        else some { st' with error := true }

/-- One chat as the engine sees it: its kind (private or not) and the
search results its keyword queries will yield. -/
structure ChatSpec where
  isPrivate : Bool
  searches : List KeywordSearch
  deriving DecidableEq

/-- Fresh per-chat loop state (src/main.py lines 548-552): empty
accumulators, no events, no error. -/
def initLoopState (s : Stats) (oracle : List DeleteOutcome) : LoopState :=
  ⟨[], [], s, [], oracle, false⟩

/-- Processing of one chat (src/main.py lines 543-722): the keyword loop,
then the foreign-deletion phase, then the final flush. -/
def processChat (myId : Int) (dfe : Bool) (c : ChatSpec) (s : Stats)
    (oracle : List DeleteOutcome) : Option LoopState :=
  match processKeywords myId dfe c.isPrivate c.searches (initLoopState s oracle) with
  | none => none
  | some st =>
    match foreignPhase st with
    | none => none
    | some st' => finalFlushPhase dfe st'

/-- Result of the dialog loop: final stats, unconsumed oracle, and one
(chat_processing_error flag, event trace) pair per chat, in order. -/
structure RunRes where
  stats : Stats
  oracle : List DeleteOutcome
  outcomes : List (Bool × List Event)
  deriving DecidableEq

/-- Stats update after one chat (src/main.py lines 731-733): chats_failed
grows by one exactly when the chat ended marked failed. -/
def bumpFailedChat (err : Bool) (s : Stats) : Stats :=
  if err then { s with chats_failed := s.chats_failed + 1 } else s

/-- The dialog loop (src/main.py lines 543-754): chats_processed is
incremented as each chat starts; a chat that ends marked failed increments
chats_failed exactly once; processing then continues with the next chat. -/
def runChats (myId : Int) (dfe : Bool) :
    List ChatSpec → List DeleteOutcome → Stats → Option RunRes
  | [], oracle, s => some ⟨s, oracle, []⟩
  | c :: cs, oracle, s =>
    match processChat myId dfe c
        { s with chats_processed := s.chats_processed + 1 } oracle with
    | none => none
    | some res =>
        match runChats myId dfe cs res.oracle (bumpFailedChat res.error res.stats) with
        | none => none
        | some rr => some ⟨rr.stats, rr.oracle, (res.error, res.trace) :: rr.outcomes⟩

/-- How the setup phase of main ends (src/main.py lines 362-466): a
non-numeric api id, a missing api hash, no keywords loaded, a failed login,
a cancelled confirmation, or success. -/
inductive SetupResult where
  | badApiId
  | noApiHash
  | noKeywords
  | loginFailed
  | cancelled
  | ok
  deriving DecidableEq

/-- Observable outcome of a whole run: the final summary (some stats when
the summary block of src/main.py lines 756-797 is reached, none when the
run returns before it), the final stats, and the per-chat outcomes. -/
structure RunOutput where
  summary : Option Stats
  stats : Stats
  outcomes : List (Bool × List Event)
  deriving DecidableEq

/-- Shallow embedding of the control flow of main after the stats are
initialised (src/main.py lines 362-801): every setup fault returns before
any chat is touched and before the summary; with setup complete but an
empty dialog list the run returns without a summary (lines 533-537);
otherwise the dialog loop runs and the summary of the final stats is
printed. -/
def runMain (setup : SetupResult) (myId : Int) (dfe : Bool)
    (chats : List ChatSpec) (oracle : List DeleteOutcome) : Option RunOutput :=
  match setup with
  | SetupResult.ok =>
      if chats.isEmpty then some ⟨none, initialStats, []⟩
      else
        match runChats myId dfe chats oracle initialStats with
        | none => none
        | some rr => some ⟨some rr.stats, rr.stats, rr.outcomes⟩
  | _ => some ⟨none, initialStats, []⟩

/-- The batch submissions recorded in a trace, oldest first, with the
revoke flag and the final-flush flag. -/
def ownBatchEvents (tr : List Event) : List (List Int × Bool × Bool) :=
  tr.filterMap fun e =>
    match e with
    | Event.ownBatch ids rv fin => some (ids, rv, fin)
    | _ => none

/-- The batch submissions recorded in a trace, id list and revoke flag
only. -/
def ownBatchList (tr : List Event) : List (List Int × Bool) :=
  tr.filterMap fun e =>
    match e with
    | Event.ownBatch ids rv _ => some (ids, rv)
    | _ => none

/-- A hit that reaches the own-message branch: valid object, integer
positive id, authored by the operator. -/
def ownValid (myId : Int) (h : Hit) : Prop :=
  h.ok = true ∧ h.idIsInt = true ∧ 0 < h.msgId ∧ h.author = myId

/-- Boolean test for a hit that reaches the foreign-deletion branch. -/
def foreignEligibleB (myId : Int) (dfe isPrivate : Bool) (h : Hit) : Bool :=
  h.ok && h.idIsInt && decide (0 < h.msgId) && decide (h.author ≠ myId) &&
    dfe && isPrivate

/-- Whether an event is the examination of a search hit. -/
def isHitEvent : Event → Bool
  | Event.hit _ => true
  | _ => false

/-- Whether an event is a foreign-message deletion attempt. -/
def isForeignEvent : Event → Bool
  | Event.foreignAttempt _ => true
  | _ => false

/-- Rendering of claim C5 on a trace: whenever a foreign-eligible hit is
examined at position i and any later hit is examined at position j, a
foreign deletion attempt for the first hit's id occurs strictly between
them. -/
def immediateForeignB (myId : Int) (dfe isPrivate : Bool)
    (tr : List Event) : Bool :=
  (List.range tr.length).all fun i =>
    (List.range tr.length).all fun j =>
      if i < j then
        match tr.get? i with
        | some (Event.hit h) =>
            if foreignEligibleB myId dfe isPrivate h then
              match tr.get? j with
              | some e2 =>
                  if isHitEvent e2 then
                    (List.range tr.length).any fun k =>
                      decide (i < k) && decide (k < j) &&
                        decide (tr.get? k = some (Event.foreignAttempt h.msgId))
                  else true
              | none => true
            else true
        | _ => true
      else true

/-- A search hit for a message authored by the operator, with a valid
positive integer id. -/
def mkOwnHit (myId i : Int) : Hit := Hit.mk true true i myId

/-- Closed form of the state after one valid own-authored hit when no
threshold flush triggers: the id is inserted if new, the hit is counted as
checked, a new id is counted as found, and the examination is traced. -/
def ownStep (h : Hit) (st : LoopState) : LoopState :=
  { st with
    own := addOwn st.own h.msgId
    stats := { st.stats with
      total_checked_api := st.stats.total_checked_api + 1
      total_found_own := st.stats.total_found_own +
        (if h.msgId ∈ st.own then 0 else 1) }
    trace := st.trace ++ [Event.hit h] }

/-- Closed form of the state after one valid own-authored fresh hit that
fills the accumulator to 100 and triggers a successful threshold flush:
the sorted accumulator is submitted (recorded as a non-final batch event),
one oracle outcome is consumed, and the accumulator is cleared. -/
def ownFlushStep (dfe : Bool) (h : Hit) (rest : List DeleteOutcome)
    (st : LoopState) : LoopState :=
  { st with
    own := []
    stats := bumpDeleted dfe 100 { st.stats with
      total_checked_api := st.stats.total_checked_api + 1
      total_found_own := st.stats.total_found_own + 1 }
    trace := st.trace ++
      [Event.hit h, Event.ownBatch (sortInts (st.own ++ [h.msgId])) dfe false]
    oracle := rest }

/-- Closed form of the state after a run of valid own-authored hits during
which no threshold flush triggers. -/
def ownRun (hits : List Hit) (st : LoopState) : LoopState :=
  { st with
    own := dedupAppend st.own (hits.map Hit.msgId)
    stats := { st.stats with
      total_checked_api := st.stats.total_checked_api + hits.length
      total_found_own := st.stats.total_found_own +
        countNew st.own (hits.map Hit.msgId) }
    trace := st.trace ++ hits.map Event.hit }

/-- One hundred distinct operator-authored search hits with ids 1 to 100. -/
def hundredOwnHits : List Hit :=
  (List.range 100).map fun n => Hit.mk true true ((n : Int) + 1) 1

/-- A chat whose first keyword search yields the hundred own hits (ids 1 to
100) and whose second keyword search yields the operator's message id 42
again. -/
def repeatKeywordChat : ChatSpec :=
  ChatSpec.mk true
    [KeywordSearch.mk 0 hundredOwnHits none,
     KeywordSearch.mk 1 [Hit.mk true true 42 1] none]

/-- The message ids 1 to 150, pairwise distinct and positive. -/
def oneTo150 : List Int := (List.range 150).map fun n => (n : Int) + 1

/-- A private chat whose single keyword search yields two foreign-authored
hits, ids 42 and 43. -/
def twoForeignChat : ChatSpec :=
  ChatSpec.mk true
    [KeywordSearch.mk 0 [Hit.mk true true 42 2, Hit.mk true true 43 2] none]

/-- Well-formedness of a recorded batch submission: the submitted id list
is non-empty, strictly ascending (hence duplicate-free), holds at most 100
ids, a mid-search threshold flush holds exactly 100 ids, and the final
per-chat flush holds fewer than 100. -/
def goodBatchEvent : Event → Prop
  | Event.ownBatch ids _ fin =>
      ids ≠ [] ∧ ids.Sorted (· < ·) ∧ ids.length ≤ 100 ∧
        (fin = false → ids.length = 100) ∧ (fin = true → ids.length < 100)
  | _ => True

instance goodBatchEventDecidable (e : Event) : Decidable (goodBatchEvent e) := by
  cases e <;> simp only [goodBatchEvent] <;> infer_instance

/-- Every batch submission recorded in the trace is well formed. -/
def goodTrace (tr : List Event) : Prop := ∀ e ∈ tr, goodBatchEvent e

/-- Whenever delete_batch_own_messages is entered with a non-empty id list
and completes, the first remote delete call it issues carries exactly that
id list and that revoke flag. -/
theorem delete_batch_head_call {i : Int} {is : List Int} {rv : Bool}
    {oracle : List DeleteOutcome} {s : Stats} {r : DelRes}
    (h : delete_batch_own_messages (i :: is) rv oracle s = some r) :
    r.calls.head? = some ⟨i :: is, rv⟩ := by
  cases oracle with
  | nil => simp [delete_batch_own_messages] at h
  | cons o rest =>
    cases o with
    | ok =>
        simp only [delete_batch_own_messages] at h
        cases h
        rfl
    | timeout =>
        simp only [delete_batch_own_messages] at h
        cases h
        rfl
    | forbidden =>
        cases rv with
        | false =>
            simp only [delete_batch_own_messages] at h
            cases h
            rfl
        | true =>
            simp only [delete_batch_own_messages] at h
            rw [if_pos trivial] at h
            cases heq : delete_batch_own_messages (i :: is) false rest s with
            | none => rw [heq] at h; cases h
            | some r' =>
                rw [heq] at h
                simp only [Option.some.injEq] at h
                subst h
                rfl
    | floodWait w =>
        simp only [delete_batch_own_messages] at h
        cases heq : delete_batch_own_messages (i :: is) rv rest s with
        | none => rw [heq] at h; cases h
        | some r' =>
            rw [heq] at h
            simp only [Option.some.injEq] at h
            subst h
            rfl
    | idsInvalid =>
        simp only [delete_batch_own_messages] at h
        cases h
        rfl
    | otherError =>
        simp only [delete_batch_own_messages] at h
        cases h
        rfl

/-- Claim C1: the claim asks that one submission of a non-empty batch adds
exactly the batch size across deleted_for_all, deleted_for_me and
failed_to_delete_own.  The code violates it: for the singleton batch with
id 1, with revoke true, when the remote delete raises
MessageDeleteForbidden and the revoke-false fallback raises
MessageDeleteForbidden again, the fallback call already adds 1 to
failed_to_delete_own and the caller adds 1 more, so the three counters gain
2 for a batch of size 1. -/
theorem C1_double_count_eval :
    ([(1 : Int)].length = 1) ∧
    (delete_batch_own_messages [1] true
        [DeleteOutcome.forbidden, DeleteOutcome.forbidden] initialStats).map
      (fun r => (r.stats.deleted_for_all + r.stats.deleted_for_me +
                 r.stats.failed_to_delete_own, r.success))
      = some (2, false) := by
  exact ⟨rfl, rfl⟩

/-- Claim C2: when delete_batch_own_messages is called on a non-empty id
list with revoke true and the remote delete raises MessageDeleteForbidden,
the controller re-attempts the identical id list with revoke false (the
next remote call carries the same ids and revoke false), and the boolean it
returns equals the result of that fallback attempt. -/
theorem C2_permission_fallback {i : Int} {is : List Int}
    {rest : List DeleteOutcome} {s : Stats} {r : DelRes}
    (h : delete_batch_own_messages (i :: is) true
        (DeleteOutcome.forbidden :: rest) s = some r) :
    ∃ rf, delete_batch_own_messages (i :: is) false rest s = some rf ∧
      r.success = rf.success ∧
      r.calls = DelCall.mk (i :: is) true :: rf.calls ∧
      rf.calls.head? = some (DelCall.mk (i :: is) false) := by
  simp only [delete_batch_own_messages] at h
  rw [if_pos trivial] at h
  cases heq : delete_batch_own_messages (i :: is) false rest s with
  | none => rw [heq] at h; cases h
  | some rf =>
      rw [heq] at h
      simp only [Option.some.injEq] at h
      subst h
      exact ⟨rf, rfl, rfl, rfl, delete_batch_head_call heq⟩

/-- Witness for C2 at a concrete input: batch with id 1, a forbidden
outcome followed by a successful fallback. -/
theorem C2_permission_fallback_witness :
    ∃ r, delete_batch_own_messages [1] true
        [DeleteOutcome.forbidden, DeleteOutcome.ok] initialStats = some r ∧
      (∃ rf, delete_batch_own_messages [1] false [DeleteOutcome.ok]
          initialStats = some rf ∧
        r.success = rf.success ∧
        r.calls = DelCall.mk [1] true :: rf.calls ∧
        rf.calls.head? = some (DelCall.mk [1] false)) :=
  ⟨_, rfl, C2_permission_fallback rfl⟩

/-- Claim C3: when the remote delete raises FloodWait with wait value w,
delete_batch_own_messages sleeps w + 5 seconds (at least w) before anything
else, re-invokes the identical delete with the identical id list and revoke
flag, and the flood event itself changes no counter: the final stats equal
those of the retry. -/
theorem C3_floodwait_retry {i : Int} {is : List Int} {rv : Bool} {w : Nat}
    {rest : List DeleteOutcome} {s : Stats} {r : DelRes}
    (h : delete_batch_own_messages (i :: is) rv
        (DeleteOutcome.floodWait w :: rest) s = some r) :
    ∃ rf, delete_batch_own_messages (i :: is) rv rest s = some rf ∧
      r.sleeps = (w + 5) :: rf.sleeps ∧
      w ≤ w + 5 ∧
      r.calls = DelCall.mk (i :: is) rv :: rf.calls ∧
      rf.calls.head? = some (DelCall.mk (i :: is) rv) ∧
      r.stats = rf.stats ∧
      r.success = rf.success := by
  simp only [delete_batch_own_messages] at h
  cases heq : delete_batch_own_messages (i :: is) rv rest s with
  | none => rw [heq] at h; cases h
  | some rf =>
      rw [heq] at h
      simp only [Option.some.injEq] at h
      subst h
      exact ⟨rf, rfl, rfl, Nat.le_add_right w 5, rfl,
        delete_batch_head_call heq, rfl, rfl⟩

/-- Witness for C3 at a concrete input: batch with id 1, revoke true, a
FloodWait of 7 seconds followed by a successful retry. -/
theorem C3_floodwait_retry_witness :
    ∃ r, delete_batch_own_messages [1] true
        [DeleteOutcome.floodWait 7, DeleteOutcome.ok] initialStats = some r ∧
      (∃ rf, delete_batch_own_messages [1] true [DeleteOutcome.ok]
          initialStats = some rf ∧
        r.sleeps = (7 + 5) :: rf.sleeps ∧
        7 ≤ 7 + 5 ∧
        r.calls = DelCall.mk [1] true :: rf.calls ∧
        rf.calls.head? = some (DelCall.mk [1] true) ∧
        r.stats = rf.stats ∧
        r.success = rf.success) :=
  ⟨_, rfl, C3_floodwait_retry rfl⟩

/-- Claim C9: a search hit that is missing, lacks a message id or lacks an
author is skipped entirely (not counted as checked, no accumulator touched,
no deletion attempted, no oracle consumed); a hit with a non-integer or
non-positive id is counted as checked and otherwise skipped the same way.
The conclusion records both cases at once: total_checked_api grows by one
exactly when the hit passed the validity check, the only trace addition is
the examination marker, and the accumulators, oracle and error flag are
unchanged. -/
theorem C9_invalid_hit_skipped {myId : Int} {dfe isPrivate : Bool} {kw : Nat}
    {h : Hit} {st : LoopState}
    (hc : h.ok = false ∨ h.idIsInt = false ∨ h.msgId ≤ 0) :
    processOneHit myId dfe isPrivate kw h st =
      some { st with
        stats := { st.stats with total_checked_api :=
          st.stats.total_checked_api + (if h.ok = true then 1 else 0) }
        trace := st.trace ++ [Event.hit h] } := by
  cases hok : h.ok with
  | false => simp [processOneHit, pushHitEvent, hok]
  | true =>
      have hc' : h.idIsInt = false ∨ h.msgId ≤ 0 := by
        rcases hc with hc | hc
        · rw [hok] at hc; cases hc
        · exact hc
      simp [processOneHit, pushHitEvent, markChecked, hok, hc']

/-- Witness for C9 at a concrete input: a hit whose id fails the isinstance
check is counted as checked and otherwise skipped. -/
theorem C9_invalid_hit_skipped_witness :
    processOneHit 1 true true 0 (Hit.mk true false 5 1)
        (initLoopState initialStats []) =
      some (LoopState.mk [] [] { initialStats with total_checked_api := 1 }
        [Event.hit (Hit.mk true false 5 1)] [] false) :=
  C9_invalid_hit_skipped (Or.inr (Or.inl rfl))

/-- Claim C6 as stated is refuted: a run whose setup fully succeeds but
whose dialog list is empty returns (src/main.py lines 533-537) without
producing the summary, so it is not the case that every run past setup
produces a summary. -/
theorem C6_counterexample :
    ¬ (∀ (myId : Int) (dfe : Bool) (chats : List ChatSpec)
        (oracle : List DeleteOutcome) (out : RunOutput),
        runMain SetupResult.ok myId dfe chats oracle = some out →
        out.summary.isSome = true) := by
  intro hall
  have h := hall 1 true [] [] ⟨none, initialStats, []⟩ rfl
  simp at h

/-- Claim C6 amended: a completed run produces the final stats summary
exactly when setup succeeded and at least one chat was found to process;
and a run aborted by a setup fault performs no deletion (no chat outcomes,
stats still at their initial zeros) and produces no summary. -/
theorem C6_summary_amended {setup : SetupResult} {myId : Int} {dfe : Bool}
    {chats : List ChatSpec} {oracle : List DeleteOutcome} {out : RunOutput}
    (hr : runMain setup myId dfe chats oracle = some out) :
    (out.summary.isSome = true ↔ (setup = SetupResult.ok ∧ chats ≠ [])) ∧
    (setup ≠ SetupResult.ok → out.stats = initialStats ∧ out.outcomes = []) := by
  cases setup with
  | ok =>
      cases chats with
      | nil =>
          simp only [runMain, List.isEmpty_nil, if_true] at hr
          cases hr
          simp
      | cons c cs =>
          simp only [runMain, List.isEmpty_cons, if_false] at hr
          cases heq : runChats myId dfe (c :: cs) oracle initialStats with
          | none => rw [heq] at hr; cases hr
          | some rr =>
              rw [heq] at hr
              cases hr
              simp
  | badApiId => cases hr; simp
  | noApiHash => cases hr; simp
  | noKeywords => cases hr; simp
  | loginFailed => cases hr; simp
  | cancelled => cases hr; simp

/-- Witness for the amended C6 at a concrete input: setup succeeded, one
chat with no keyword results, so the summary is produced. -/
theorem C6_summary_amended_witness :
    ∃ out, runMain SetupResult.ok 1 true [ChatSpec.mk true []] [] = some out ∧
      ((out.summary.isSome = true ↔
          (SetupResult.ok = SetupResult.ok ∧
           ([ChatSpec.mk true []] : List ChatSpec) ≠ [])) ∧
       (SetupResult.ok ≠ SetupResult.ok →
          out.stats = initialStats ∧ out.outcomes = [])) :=
  ⟨_, rfl, @C6_summary_amended SetupResult.ok 1 true [ChatSpec.mk true []] [] _ rfl⟩

set_option maxRecDepth 4096 in
/-- Claim C5 as stated is refuted: in a private chat in delete-for-everyone
mode, a keyword search yielding the foreign messages 42 and 43 produces a
trace in which both hits are examined before any foreign deletion attempt,
so the attempt for 42 is not issued before the next search hit is
processed. -/
theorem C5_counterexample :
    ∃ res, processChat 1 true twoForeignChat initialStats
        [DeleteOutcome.forbidden, DeleteOutcome.forbidden] = some res ∧
      res.trace = [Event.hit (Hit.mk true true 42 2),
        Event.hit (Hit.mk true true 43 2),
        Event.foreignAttempt 42, Event.foreignAttempt 43] ∧
      immediateForeignB 1 true true res.trace = false :=
  ⟨_, rfl, rfl, rfl⟩

set_option maxRecDepth 40000 in
/-- Claim C4 as stated is refuted: in the chat where the first keyword
matches the hundred own ids 1 to 100 (forcing a successful threshold flush
that clears the accumulator) and the second keyword matches id 42 again,
id 42 appears in two distinct submitted batches and total_found_own ends at
101 although only 100 distinct own ids exist, so 42 is double counted. -/
theorem C4_counterexample :
    (processChat 1 true repeatKeywordChat initialStats
        [DeleteOutcome.ok, DeleteOutcome.ok]).map
      (fun res => ((ownBatchList res.trace).countP (fun b => b.1.contains 42),
                   (ownBatchList res.trace).length,
                   res.stats.total_found_own))
      = some (2, 2, 101) ∧
    (repeatKeywordChat.searches.map fun k =>
        (k.hits.map Hit.msgId).contains 42) = [true, true] ∧
    (dedupAppend []
        ((hundredOwnHits ++ [Hit.mk true true 42 1]).map Hit.msgId)).length
      = 100 := by
  exact ⟨by decide, by decide, by decide⟩

/-- The batch controller never touches the search counters or the chat
counters: it only updates the deletion counters. -/
theorem delete_batch_preserves {oracle : List DeleteOutcome} :
    ∀ {ids : List Int} {rv : Bool} {s : Stats} {r : DelRes},
      delete_batch_own_messages ids rv oracle s = some r →
      r.stats.total_checked_api = s.total_checked_api ∧
      r.stats.total_found_own = s.total_found_own ∧
      r.stats.total_found_other = s.total_found_other ∧
      r.stats.chats_processed = s.chats_processed ∧
      r.stats.chats_failed = s.chats_failed := by
  induction oracle with
  | nil =>
      intro ids rv s r h
      cases ids with
      | nil =>
          simp only [delete_batch_own_messages, Option.some.injEq] at h
          subst h
          exact ⟨rfl, rfl, rfl, rfl, rfl⟩
      | cons i is => simp only [delete_batch_own_messages] at h; cases h
  | cons o rest ih =>
      intro ids rv s r h
      cases ids with
      | nil =>
          simp only [delete_batch_own_messages, Option.some.injEq] at h
          subst h
          exact ⟨rfl, rfl, rfl, rfl, rfl⟩
      | cons i is =>
          cases o with
          | ok =>
              simp only [delete_batch_own_messages, Option.some.injEq] at h
              subst h
              cases rv <;> simp [bumpDeleted]
          | timeout =>
              simp only [delete_batch_own_messages, Option.some.injEq] at h
              subst h
              simp [bumpFailedOwn]
          | forbidden =>
              cases rv with
              | false =>
                  simp only [delete_batch_own_messages, Bool.false_eq_true,
                    if_false, Option.some.injEq] at h
                  subst h
                  simp [bumpFailedOwn]
              | true =>
                  simp only [delete_batch_own_messages] at h
                  rw [if_pos trivial] at h
                  cases heq : delete_batch_own_messages (i :: is) false rest s with
                  | none => rw [heq] at h; cases h
                  | some r' =>
                      rw [heq] at h
                      simp only [Option.some.injEq] at h
                      subst h
                      have hih := ih heq
                      cases hs : r'.success <;> simpa [hs, bumpFailedOwn] using hih
          | floodWait w =>
              simp only [delete_batch_own_messages] at h
              cases heq : delete_batch_own_messages (i :: is) rv rest s with
              | none => rw [heq] at h; cases h
              | some r' =>
                  rw [heq] at h
                  simp only [Option.some.injEq] at h
                  subst h
                  simpa using ih heq
          | idsInvalid =>
              simp only [delete_batch_own_messages, Option.some.injEq] at h
              subst h
              simp [bumpFailedOwn]
          | otherError =>
              simp only [delete_batch_own_messages, Option.some.injEq] at h
              subst h
              simp [bumpFailedOwn]

/-- The foreign-deletion helper never touches the search counters or the
chat counters: it only updates the foreign-attempt counters. -/
theorem attempt_delete_other_preserves {oracle : List DeleteOutcome} :
    ∀ {mid : Int} {s : Stats}
      {out : Stats × List DelCall × List Nat × List DeleteOutcome},
      attempt_delete_other_message mid oracle s = some out →
      out.1.total_checked_api = s.total_checked_api ∧
      out.1.total_found_own = s.total_found_own ∧
      out.1.total_found_other = s.total_found_other ∧
      out.1.chats_processed = s.chats_processed ∧
      out.1.chats_failed = s.chats_failed := by
  induction oracle with
  | nil => intro mid s out h; simp only [attempt_delete_other_message] at h; cases h
  | cons o rest ih =>
      intro mid s out h
      cases o with
      | ok =>
          simp only [attempt_delete_other_message, Option.some.injEq] at h
          subst h
          exact ⟨rfl, rfl, rfl, rfl, rfl⟩
      | floodWait w =>
          simp only [attempt_delete_other_message] at h
          cases heq : attempt_delete_other_message mid rest
              { s with attempted_delete_other := s.attempted_delete_other + 1 } with
          | none => rw [heq] at h; cases h
          | some out' =>
              rw [heq] at h
              obtain ⟨s2, calls, sleeps, o2⟩ := out'
              simp only [Option.some.injEq] at h
              subst h
              simpa using ih heq
      | timeout =>
          simp only [attempt_delete_other_message, Option.some.injEq] at h
          subst h
          exact ⟨rfl, rfl, rfl, rfl, rfl⟩
      | forbidden =>
          simp only [attempt_delete_other_message, Option.some.injEq] at h
          subst h
          exact ⟨rfl, rfl, rfl, rfl, rfl⟩
      | idsInvalid =>
          simp only [attempt_delete_other_message, Option.some.injEq] at h
          subst h
          exact ⟨rfl, rfl, rfl, rfl, rfl⟩
      | otherError =>
          simp only [attempt_delete_other_message, Option.some.injEq] at h
          subst h
          exact ⟨rfl, rfl, rfl, rfl, rfl⟩

/-- Hit classification never touches the chat counters. -/
theorem classifyHit_chats (myId : Int) (dfe isPrivate : Bool) (kw : Nat)
    (h : Hit) (st : LoopState) :
    (classifyHit myId dfe isPrivate kw h st).stats.chats_processed
        = st.stats.chats_processed ∧
    (classifyHit myId dfe isPrivate kw h st).stats.chats_failed
        = st.stats.chats_failed := by
  unfold classifyHit
  split
  · split
    · exact ⟨rfl, rfl⟩
    · exact ⟨rfl, rfl⟩
  · split
    · split
      · exact ⟨rfl, rfl⟩
      · exact ⟨rfl, rfl⟩
    · exact ⟨rfl, rfl⟩

/-- A threshold flush never touches the chat counters. -/
theorem thresholdFlush_chats {dfe : Bool} {st st' : LoopState}
    (hr : thresholdFlush dfe st = some st') :
    st'.stats.chats_processed = st.stats.chats_processed ∧
    st'.stats.chats_failed = st.stats.chats_failed := by
  unfold thresholdFlush at hr
  split at hr
  · cases heq : delete_batch_own_messages (sortInts st.own) dfe st.oracle st.stats with
    | none => rw [heq] at hr; cases hr
    | some r =>
        rw [heq] at hr
        have hd := delete_batch_preserves heq
        cases hs : r.success <;> simp only [hs] at hr
        · simp only [Bool.false_eq_true, if_false, Option.some.injEq] at hr
          subst hr
          exact ⟨hd.2.2.2.1, hd.2.2.2.2⟩
        · rw [if_pos trivial] at hr
          simp only [Option.some.injEq] at hr
          subst hr
          exact ⟨hd.2.2.2.1, hd.2.2.2.2⟩
  · cases hr
    exact ⟨rfl, rfl⟩

/-- Processing one search hit never touches the chat counters. -/
theorem processOneHit_chats {myId : Int} {dfe isPrivate : Bool} {kw : Nat}
    {h : Hit} {st st' : LoopState}
    (hr : processOneHit myId dfe isPrivate kw h st = some st') :
    st'.stats.chats_processed = st.stats.chats_processed ∧
    st'.stats.chats_failed = st.stats.chats_failed := by
  dsimp only [processOneHit] at hr
  split at hr
  · cases hr; exact ⟨rfl, rfl⟩
  · split at hr
    · cases hr; exact ⟨rfl, rfl⟩
    · have hc := classifyHit_chats myId dfe isPrivate kw h
        (markChecked (pushHitEvent h st))
      have ht := thresholdFlush_chats hr
      exact ⟨ht.1.trans hc.1, ht.2.trans hc.2⟩

/-- The message loop never touches the chat counters. -/
theorem processHits_chats {myId : Int} {dfe isPrivate : Bool} {kw : Nat} :
    ∀ {hits : List Hit} {st st' : LoopState},
      processHits myId dfe isPrivate kw hits st = some st' →
      st'.stats.chats_processed = st.stats.chats_processed ∧
      st'.stats.chats_failed = st.stats.chats_failed := by
  intro hits
  induction hits with
  | nil =>
      intro st st' h
      simp only [processHits, Option.some.injEq] at h
      subst h
      exact ⟨rfl, rfl⟩
  | cons hd tl ih =>
      intro st st' h
      simp only [processHits] at h
      cases heq : processOneHit myId dfe isPrivate kw hd st with
      | none => rw [heq] at h; cases h
      | some st1 =>
          rw [heq] at h
          have h1 := processOneHit_chats heq
          cases he : st1.error <;> simp only [he] at h
          · simp only [Bool.false_eq_true, if_false] at h
            have h2 := ih h
            exact ⟨h2.1.trans h1.1, h2.2.trans h1.2⟩
          · rw [if_pos trivial] at h
            simp only [Option.some.injEq] at h
            subst h
            exact h1

/-- One keyword's processing never touches the chat counters. -/
theorem processKeyword_chats {myId : Int} {dfe isPrivate : Bool}
    {k : KeywordSearch} {st st' : LoopState}
    (hr : processKeyword myId dfe isPrivate k st = some st') :
    st'.stats.chats_processed = st.stats.chats_processed ∧
    st'.stats.chats_failed = st.stats.chats_failed := by
  unfold processKeyword at hr
  cases heq : processHits myId dfe isPrivate k.keyword k.hits st with
  | none => rw [heq] at hr; cases hr
  | some st1 =>
      rw [heq] at hr
      have h1 := processHits_chats heq
      cases he : st1.error <;> simp only [he] at hr
      · simp only [Bool.false_eq_true, if_false] at hr
        cases hf : k.fault with
        | none => rw [hf] at hr; cases hr; exact h1
        | some f =>
            rw [hf] at hr
            cases f with
            | floodWait w => cases hr; exact h1
            | access => cases hr; exact h1
            | queryEmpty => cases hr; exact h1
            | other => cases hr; exact h1
      · rw [if_pos trivial] at hr
        simp only [Option.some.injEq] at hr
        subst hr
        exact h1

/-- The keyword loop never touches the chat counters. -/
theorem processKeywords_chats {myId : Int} {dfe isPrivate : Bool} :
    ∀ {ks : List KeywordSearch} {st st' : LoopState},
      processKeywords myId dfe isPrivate ks st = some st' →
      st'.stats.chats_processed = st.stats.chats_processed ∧
      st'.stats.chats_failed = st.stats.chats_failed := by
  intro ks
  induction ks with
  | nil =>
      intro st st' h
      simp only [processKeywords, Option.some.injEq] at h
      subst h
      exact ⟨rfl, rfl⟩
  | cons k ks ih =>
      intro st st' h
      simp only [processKeywords] at h
      cases heq : processKeyword myId dfe isPrivate k st with
      | none => rw [heq] at h; cases h
      | some st1 =>
          rw [heq] at h
          have h1 := processKeyword_chats heq
          cases he : st1.error <;> simp only [he] at h
          · simp only [Bool.false_eq_true, if_false] at h
            have h2 := ih h
            exact ⟨h2.1.trans h1.1, h2.2.trans h1.2⟩
          · rw [if_pos trivial] at h
            simp only [Option.some.injEq] at h
            subst h
            exact h1

/-- The foreign-deletion loop never touches the chat counters. -/
theorem processForeign_chats :
    ∀ {ps : List (Int × Nat)} {st st' : LoopState},
      processForeign ps st = some st' →
      st'.stats.chats_processed = st.stats.chats_processed ∧
      st'.stats.chats_failed = st.stats.chats_failed := by
  intro ps
  induction ps with
  | nil =>
      intro st st' h
      simp only [processForeign, Option.some.injEq] at h
      subst h
      exact ⟨rfl, rfl⟩
  | cons p tl ih =>
      intro st st' h
      obtain ⟨mid, kw⟩ := p
      simp only [processForeign] at h
      cases heq : attempt_delete_other_message mid st.oracle st.stats with
      | none => rw [heq] at h; cases h
      | some out =>
          rw [heq] at h
          obtain ⟨s2, calls, sleeps, o2⟩ := out
          have ha := attempt_delete_other_preserves heq
          have h2 := ih h
          exact ⟨h2.1.trans ha.2.2.2.1, h2.2.trans ha.2.2.2.2⟩

/-- The foreign phase never touches the chat counters. -/
theorem foreignPhase_chats {st st' : LoopState}
    (hr : foreignPhase st = some st') :
    st'.stats.chats_processed = st.stats.chats_processed ∧
    st'.stats.chats_failed = st.stats.chats_failed := by
  unfold foreignPhase at hr
  split at hr
  · cases hr; exact ⟨rfl, rfl⟩
  · exact processForeign_chats hr

/-- The final flush never touches the chat counters. -/
theorem finalFlushPhase_chats {dfe : Bool} {st st' : LoopState}
    (hr : finalFlushPhase dfe st = some st') :
    st'.stats.chats_processed = st.stats.chats_processed ∧
    st'.stats.chats_failed = st.stats.chats_failed := by
  unfold finalFlushPhase at hr
  split at hr
  · cases hr; exact ⟨rfl, rfl⟩
  · cases heq : delete_batch_own_messages (sortInts st.own) dfe st.oracle st.stats with
    | none => rw [heq] at hr; cases hr
    | some r =>
        rw [heq] at hr
        have hd := delete_batch_preserves heq
        cases hs : r.success <;> simp only [hs] at hr
        · simp only [Bool.false_eq_true, if_false, Option.some.injEq] at hr
          subst hr
          exact ⟨hd.2.2.2.1, hd.2.2.2.2⟩
        · rw [if_pos trivial] at hr
          simp only [Option.some.injEq] at hr
          subst hr
          exact ⟨hd.2.2.2.1, hd.2.2.2.2⟩

/-- Whole-chat processing never touches the chat counters. -/
theorem processChat_chats {myId : Int} {dfe : Bool} {c : ChatSpec} {s : Stats}
    {oracle : List DeleteOutcome} {res : LoopState}
    (hr : processChat myId dfe c s oracle = some res) :
    res.stats.chats_processed = s.chats_processed ∧
    res.stats.chats_failed = s.chats_failed := by
  unfold processChat at hr
  cases h1 : processKeywords myId dfe c.isPrivate c.searches (initLoopState s oracle) with
  | none => rw [h1] at hr; cases hr
  | some st1 =>
      rw [h1] at hr
      dsimp only at hr
      cases h2 : foreignPhase st1 with
      | none => rw [h2] at hr; cases hr
      | some st2 =>
          rw [h2] at hr
          dsimp only at hr
          have k1 := processKeywords_chats h1
          have k2 := foreignPhase_chats h2
          have k3 := finalFlushPhase_chats hr
          exact ⟨(k3.1.trans k2.1).trans k1.1, (k3.2.trans k2.2).trans k1.2⟩

/-- Claim C8: a completed dialog loop yields one outcome per chat — a
failure inside one chat never aborts the run — and its counters obey:
chats_processed grows by exactly the number of chats in the list, and
chats_failed grows by exactly the number of chats whose processing ended
marked failed, one increment per failed chat. -/
theorem C8_chat_failure_isolated {myId : Int} {dfe : Bool} :
    ∀ {specs : List ChatSpec} {oracle : List DeleteOutcome} {s : Stats}
      {rr : RunRes},
      runChats myId dfe specs oracle s = some rr →
      rr.outcomes.length = specs.length ∧
      rr.stats.chats_processed = s.chats_processed + specs.length ∧
      rr.stats.chats_failed = s.chats_failed + rr.outcomes.countP (fun b => b.1) := by
  intro specs
  induction specs with
  | nil =>
      intro oracle s rr h
      simp only [runChats, Option.some.injEq] at h
      subst h
      simp
  | cons c cs ih =>
      intro oracle s rr h
      simp only [runChats] at h
      cases h1 : processChat myId dfe c
          { s with chats_processed := s.chats_processed + 1 } oracle with
      | none => rw [h1] at h; cases h
      | some res =>
          rw [h1] at h
          dsimp only at h
          have hc := processChat_chats h1
          cases h2 : runChats myId dfe cs res.oracle
              (bumpFailedChat res.error res.stats) with
          | none => rw [h2] at h; cases h
          | some rr' =>
              rw [h2] at h
              simp only [Option.some.injEq] at h
              subst h
              have hi := ih h2
              refine ⟨by simpa using hi.1, ?_, ?_⟩
              · have hs2 : (bumpFailedChat res.error res.stats).chats_processed
                    = res.stats.chats_processed := by
                  unfold bumpFailedChat; cases res.error <;> rfl
                have := hi.2.1
                rw [hs2] at this
                rw [this, hc.1]
                simp only [List.length_cons]
                omega
              · have hs2 : (bumpFailedChat res.error res.stats).chats_failed
                    = res.stats.chats_failed + (if res.error then 1 else 0) := by
                  unfold bumpFailedChat; cases res.error <;> simp
                have := hi.2.2
                rw [hs2] at this
                rw [this, hc.2]
                cases hre : res.error <;>
                  simp [List.countP_cons, hre] <;> try omega

/-- Witness for C8 at a concrete input: two chats, the first failing with
an access error, the second succeeding; both are processed and chats_failed
grows by one. -/
theorem C8_chat_failure_isolated_witness :
    ∃ rr, runChats 1 true
        [ChatSpec.mk true [KeywordSearch.mk 0 [] (some SearchFault.access)],
         ChatSpec.mk true []] [] initialStats = some rr ∧
      rr.outcomes.length = 2 ∧
      rr.stats.chats_processed = initialStats.chats_processed + 2 ∧
      rr.stats.chats_failed
        = initialStats.chats_failed + rr.outcomes.countP (fun b => b.1) :=
  ⟨RunRes.mk { initialStats with chats_processed := 2, chats_failed := 1 }
      [] [(true, []), (false, [])], rfl,
    @C8_chat_failure_isolated 1 true
      [ChatSpec.mk true [KeywordSearch.mk 0 [] (some SearchFault.access)],
       ChatSpec.mk true []] [] initialStats
      (RunRes.mk { initialStats with chats_processed := 2, chats_failed := 1 }
        [] [(true, []), (false, [])]) rfl⟩

theorem sortInts_length (l : List Int) : (sortInts l).length = l.length :=
  (List.perm_insertionSort _ l).length_eq

theorem sortInts_nodup {l : List Int} (h : l.Nodup) : (sortInts l).Nodup :=
  ((List.perm_insertionSort _ l).nodup_iff).2 h

theorem sortInts_sorted {l : List Int} (h : l.Nodup) :
    (sortInts l).Sorted (· < ·) :=
  List.Sorted.lt_of_le (List.sorted_insertionSort _ l) (sortInts_nodup h)

theorem sortInts_ne_nil {l : List Int} (h : l ≠ []) : sortInts l ≠ [] := by
  intro hc
  apply h
  have hlen := sortInts_length l
  rw [hc] at hlen
  exact List.length_eq_zero.mp hlen.symm

theorem sortInts_mem {l : List Int} {a : Int} : a ∈ sortInts l ↔ a ∈ l :=
  List.mem_insertionSort _

theorem goodTrace_append_single {tr : List Event} {e : Event}
    (hT : goodTrace tr) (he : goodBatchEvent e) : goodTrace (tr ++ [e]) := by
  intro x hx
  rcases List.mem_append.1 hx with hx | hx
  · exact hT x hx
  · rw [List.mem_singleton] at hx; subst hx; exact he

/-- Hit classification leaves the trace, oracle and error flag alone. -/
theorem classifyHit_frame2 (myId : Int) (dfe isPrivate : Bool) (kw : Nat)
    (h : Hit) (st : LoopState) :
    (classifyHit myId dfe isPrivate kw h st).trace = st.trace ∧
    (classifyHit myId dfe isPrivate kw h st).oracle = st.oracle ∧
    (classifyHit myId dfe isPrivate kw h st).error = st.error := by
  unfold classifyHit
  split
  · split
    · exact ⟨rfl, rfl, rfl⟩
    · exact ⟨rfl, rfl, rfl⟩
  · split
    · split
      · exact ⟨rfl, rfl, rfl⟩
      · exact ⟨rfl, rfl, rfl⟩
    · exact ⟨rfl, rfl, rfl⟩

/-- Hit classification either leaves the own accumulator alone or appends
one id that was not yet present. -/
theorem classifyHit_own_cases (myId : Int) (dfe isPrivate : Bool) (kw : Nat)
    (h : Hit) (st : LoopState) :
    (classifyHit myId dfe isPrivate kw h st).own = st.own ∨
    (h.msgId ∉ st.own ∧
      (classifyHit myId dfe isPrivate kw h st).own = st.own ++ [h.msgId]) := by
  unfold classifyHit
  split
  · split
    · exact Or.inl rfl
    · next hmem => exact Or.inr ⟨hmem, rfl⟩
  · split
    · split
      · exact Or.inl rfl
      · exact Or.inl rfl
    · exact Or.inl rfl

/-- A threshold flush keeps the trace well formed and re-establishes the
accumulator invariant: whenever it is entered with a duplicate-free
accumulator of at most 100 ids, the recorded batch (if any) holds exactly
100 strictly ascending ids, and afterwards either the chat is marked
failed or the accumulator again holds fewer than 100 ids. -/
theorem thresholdFlush_inv {dfe : Bool} {st st' : LoopState}
    (hr : thresholdFlush dfe st = some st')
    (hN : st.own.Nodup) (hL : st.own.length ≤ 100) (hT : goodTrace st.trace) :
    goodTrace st'.trace ∧ st'.own.Nodup ∧
    (st'.error = false → st'.own.length < 100) := by
  unfold thresholdFlush at hr
  split at hr
  case isTrue hge =>
    cases heq : delete_batch_own_messages (sortInts st.own) dfe st.oracle st.stats with
    | none => rw [heq] at hr; cases hr
    | some r =>
        rw [heq] at hr
        have h100 : st.own.length = 100 := le_antisymm hL hge
        have hgood : goodBatchEvent (Event.ownBatch (sortInts st.own) dfe false) := by
          refine ⟨?_, sortInts_sorted hN, ?_, ?_, ?_⟩
          · apply sortInts_ne_nil
            intro hc
            rw [hc] at h100
            simp at h100
          · rw [sortInts_length, h100]
          · intro _
            rw [sortInts_length, h100]
          · intro hcontra
            exact absurd hcontra (by simp)
        have hT' := goodTrace_append_single hT hgood
        cases hs : r.success <;> simp only [hs] at hr
        · simp only [Bool.false_eq_true, if_false, Option.some.injEq] at hr
          subst hr
          exact ⟨hT', hN, fun hc => absurd hc (by simp)⟩
        · rw [if_pos trivial] at hr
          simp only [Option.some.injEq] at hr
          subst hr
          exact ⟨hT', List.nodup_nil, fun _ => by simp⟩
  case isFalse hlt =>
    cases hr
    exact ⟨hT, hN, fun _ => Nat.lt_of_not_le hlt⟩

/-- Processing one hit preserves the trace and accumulator invariants. -/
theorem processOneHit_inv {myId : Int} {dfe isPrivate : Bool} {kw : Nat}
    {h : Hit} {st st' : LoopState}
    (hr : processOneHit myId dfe isPrivate kw h st = some st')
    (hN : st.own.Nodup) (hL : st.own.length < 100) (hT : goodTrace st.trace) :
    goodTrace st'.trace ∧ st'.own.Nodup ∧
    (st'.error = false → st'.own.length < 100) := by
  dsimp only [processOneHit] at hr
  have hTpush : goodTrace (st.trace ++ [Event.hit h]) :=
    goodTrace_append_single hT trivial
  split at hr
  · cases hr
    exact ⟨hTpush, hN, fun _ => hL⟩
  · split at hr
    · cases hr
      exact ⟨hTpush, hN, fun _ => hL⟩
    · have hcframe := classifyHit_frame2 myId dfe isPrivate kw h
        (markChecked (pushHitEvent h st))
      have hcown := classifyHit_own_cases myId dfe isPrivate kw h
        (markChecked (pushHitEvent h st))
      have hNc : (classifyHit myId dfe isPrivate kw h
          (markChecked (pushHitEvent h st))).own.Nodup := by
        rcases hcown with hsame | ⟨hnotmem, happ⟩
        · rw [hsame]; exact hN
        · rw [happ]
          exact List.Nodup.append hN (List.nodup_singleton _)
            ((List.disjoint_singleton).2 hnotmem)
      have hLc : (classifyHit myId dfe isPrivate kw h
          (markChecked (pushHitEvent h st))).own.length ≤ 100 := by
        rcases hcown with hsame | ⟨_, happ⟩
        · rw [hsame]; exact le_of_lt hL
        · rw [happ, List.length_append]
          have hown : (markChecked (pushHitEvent h st)).own = st.own := rfl
          rw [hown]
          simp only [List.length_singleton]
          omega
      have hTc : goodTrace (classifyHit myId dfe isPrivate kw h
          (markChecked (pushHitEvent h st))).trace := by
        rw [hcframe.1]; exact hTpush
      exact thresholdFlush_inv hr hNc hLc hTc

/-- The message loop preserves the trace and accumulator invariants. -/
theorem processHits_inv {myId : Int} {dfe isPrivate : Bool} {kw : Nat} :
    ∀ {hits : List Hit} {st st' : LoopState},
      processHits myId dfe isPrivate kw hits st = some st' →
      st.own.Nodup → (st.error = false → st.own.length < 100) →
      goodTrace st.trace → st.error = false →
      goodTrace st'.trace ∧ st'.own.Nodup ∧
      (st'.error = false → st'.own.length < 100) := by
  intro hits
  induction hits with
  | nil =>
      intro st st' h hN hL hT herr
      simp only [processHits, Option.some.injEq] at h
      subst h
      exact ⟨hT, hN, hL⟩
  | cons hd tl ih =>
      intro st st' h hN hL hT herr
      simp only [processHits] at h
      cases heq : processOneHit myId dfe isPrivate kw hd st with
      | none => rw [heq] at h; cases h
      | some st1 =>
          rw [heq] at h
          have i1 := processOneHit_inv heq hN (hL herr) hT
          cases he : st1.error <;> simp only [he] at h
          · simp only [Bool.false_eq_true, if_false] at h
            exact ih h i1.2.1 i1.2.2 i1.1 he
          · rw [if_pos trivial] at h
            simp only [Option.some.injEq] at h
            subst h
            exact i1


/-- One keyword's processing preserves the trace and accumulator
invariants. -/
theorem processKeyword_inv {myId : Int} {dfe isPrivate : Bool}
    {k : KeywordSearch} {st st' : LoopState}
    (hr : processKeyword myId dfe isPrivate k st = some st')
    (hN : st.own.Nodup) (hL : st.error = false → st.own.length < 100)
    (hT : goodTrace st.trace) (herr : st.error = false) :
    goodTrace st'.trace ∧ st'.own.Nodup ∧
    (st'.error = false → st'.own.length < 100) := by
  unfold processKeyword at hr
  cases heq : processHits myId dfe isPrivate k.keyword k.hits st with
  | none => rw [heq] at hr; cases hr
  | some st1 =>
      rw [heq] at hr
      have i1 := processHits_inv heq hN hL hT herr
      cases he : st1.error <;> simp only [he] at hr
      · simp only [Bool.false_eq_true, if_false] at hr
        cases hf : k.fault with
        | none => rw [hf] at hr; cases hr; exact i1
        | some f =>
            rw [hf] at hr
            cases f with
            | floodWait w => cases hr; exact i1
            | access =>
                cases hr
                exact ⟨i1.1, i1.2.1, fun hc => absurd hc (by simp)⟩
            | queryEmpty => cases hr; exact i1
            | other =>
                cases hr
                exact ⟨i1.1, i1.2.1, fun hc => absurd hc (by simp)⟩
      · rw [if_pos trivial] at hr
        simp only [Option.some.injEq] at hr
        subst hr
        exact i1

/-- The keyword loop preserves the trace and accumulator invariants. -/
theorem processKeywords_inv {myId : Int} {dfe isPrivate : Bool} :
    ∀ {ks : List KeywordSearch} {st st' : LoopState},
      processKeywords myId dfe isPrivate ks st = some st' →
      st.own.Nodup → (st.error = false → st.own.length < 100) →
      goodTrace st.trace → st.error = false →
      goodTrace st'.trace ∧ st'.own.Nodup ∧
      (st'.error = false → st'.own.length < 100) := by
  intro ks
  induction ks with
  | nil =>
      intro st st' h hN hL hT herr
      simp only [processKeywords, Option.some.injEq] at h
      subst h
      exact ⟨hT, hN, hL⟩
  | cons k ks ih =>
      intro st st' h hN hL hT herr
      simp only [processKeywords] at h
      cases heq : processKeyword myId dfe isPrivate k st with
      | none => rw [heq] at h; cases h
      | some st1 =>
          rw [heq] at h
          have i1 := processKeyword_inv heq hN hL hT herr
          cases he : st1.error <;> simp only [he] at h
          · simp only [Bool.false_eq_true, if_false] at h
            exact ih h i1.2.1 i1.2.2 i1.1 he
          · rw [if_pos trivial] at h
            simp only [Option.some.injEq] at h
            subst h
            exact i1

/-- The foreign-deletion loop only appends foreign-attempt events and
leaves the own accumulator and the error flag alone. -/
theorem processForeign_inv :
    ∀ {ps : List (Int × Nat)} {st st' : LoopState},
      processForeign ps st = some st' →
      goodTrace st.trace →
      goodTrace st'.trace ∧ st'.own = st.own ∧ st'.error = st.error := by
  intro ps
  induction ps with
  | nil =>
      intro st st' h hT
      simp only [processForeign, Option.some.injEq] at h
      subst h
      exact ⟨hT, rfl, rfl⟩
  | cons p tl ih =>
      intro st st' h hT
      obtain ⟨mid, kw⟩ := p
      simp only [processForeign] at h
      cases heq : attempt_delete_other_message mid st.oracle st.stats with
      | none => rw [heq] at h; cases h
      | some out =>
          rw [heq] at h
          obtain ⟨s2, calls, sleeps, o2⟩ := out
          have i1 := ih h (goodTrace_append_single hT trivial)
          exact ⟨i1.1, i1.2.1, i1.2.2⟩

/-- The foreign phase preserves the trace invariant and leaves the own
accumulator and the error flag alone. -/
theorem foreignPhase_inv {st st' : LoopState}
    (hr : foreignPhase st = some st') (hT : goodTrace st.trace) :
    goodTrace st'.trace ∧ st'.own = st.own ∧ st'.error = st.error := by
  unfold foreignPhase at hr
  split at hr
  · cases hr; exact ⟨hT, rfl, rfl⟩
  · exact processForeign_inv hr hT

/-- The final flush keeps the trace well formed: whenever it is entered
with a duplicate-free accumulator that is below 100 when the chat is not
marked failed, any batch it records is a non-empty strictly ascending list
of fewer than 100 ids. -/
theorem finalFlushPhase_inv {dfe : Bool} {st st' : LoopState}
    (hr : finalFlushPhase dfe st = some st')
    (hN : st.own.Nodup) (hL : st.error = false → st.own.length < 100)
    (hT : goodTrace st.trace) :
    goodTrace st'.trace := by
  unfold finalFlushPhase at hr
  split at hr
  · cases hr; exact hT
  · next hcond =>
      have hcond' : st.own.isEmpty = false ∧ st.error = false := by
        constructor
        · cases hx : st.own.isEmpty
          · rfl
          · exact absurd (by simp [hx]) hcond
        · cases hx : st.error
          · rfl
          · exact absurd (by simp [hx]) hcond
      have hlen := hL hcond'.2
      have hne : st.own ≠ [] := by
        intro hc
        rw [hc] at hcond'
        simp at hcond'
      cases heq : delete_batch_own_messages (sortInts st.own) dfe st.oracle st.stats with
      | none => rw [heq] at hr; cases hr
      | some r =>
          rw [heq] at hr
          have hgood : goodBatchEvent (Event.ownBatch (sortInts st.own) dfe true) := by
            refine ⟨sortInts_ne_nil hne, sortInts_sorted hN, ?_, ?_, ?_⟩
            · rw [sortInts_length]; exact le_of_lt hlen
            · intro hcontra
              exact absurd hcontra (by simp)
            · intro _
              rw [sortInts_length]; exact hlen
          have hT' := goodTrace_append_single hT hgood
          cases hs : r.success <;> simp only [hs] at hr
          · simp only [Bool.false_eq_true, if_false, Option.some.injEq] at hr
            subst hr
            exact hT'
          · rw [if_pos trivial] at hr
            simp only [Option.some.injEq] at hr
            subst hr
            exact hT'

/-- Claim C10: every batch submission one chat's processing records —
threshold flushes and the final flush alike — carries a non-empty,
strictly ascending (hence duplicate-free) id list of at most 100 ids;
threshold flushes carry exactly 100 ids and the final flush fewer than
100. -/
theorem C10_batch_invariants {myId : Int} {dfe : Bool} {c : ChatSpec}
    {s : Stats} {oracle : List DeleteOutcome} {res : LoopState}
    (hr : processChat myId dfe c s oracle = some res) :
    goodTrace res.trace := by
  unfold processChat at hr
  cases h1 : processKeywords myId dfe c.isPrivate c.searches (initLoopState s oracle) with
  | none => rw [h1] at hr; cases hr
  | some st1 =>
      rw [h1] at hr
      dsimp only at hr
      have i1 := processKeywords_inv h1 List.nodup_nil
        (fun _ => by norm_num [initLoopState])
        (fun e he => absurd he (List.not_mem_nil e)) rfl
      cases h2 : foreignPhase st1 with
      | none => rw [h2] at hr; cases hr
      | some st2 =>
          rw [h2] at hr
          dsimp only at hr
          have i2 := foreignPhase_inv h2 i1.1
          have hN2 : st2.own.Nodup := by rw [i2.2.1]; exact i1.2.1
          have hL2 : st2.error = false → st2.own.length < 100 := by
            intro he
            rw [i2.2.1]
            exact i1.2.2 (i2.2.2 ▸ he)
          exact finalFlushPhase_inv hr hN2 hL2 i2.1

/-- Witness for C10 at a concrete input: one chat, one keyword matching a
single own message, one successful batch. -/
theorem C10_batch_invariants_witness :
    ∃ res, processChat 1 true
        (ChatSpec.mk true [KeywordSearch.mk 0 [Hit.mk true true 5 1] none])
        initialStats [DeleteOutcome.ok] = some res ∧
      goodTrace res.trace :=
  ⟨LoopState.mk [] []
      { initialStats with
        total_checked_api := 1
        total_found_own := 1
        deleted_for_all := 1 }
      [Event.hit (Hit.mk true true 5 1), Event.ownBatch [5] true true] [] false,
    rfl,
    @C10_batch_invariants 1 true
      (ChatSpec.mk true [KeywordSearch.mk 0 [Hit.mk true true 5 1] none])
      initialStats [DeleteOutcome.ok]
      (LoopState.mk [] []
        { initialStats with
          total_checked_api := 1
          total_found_own := 1
          deleted_for_all := 1 }
        [Event.hit (Hit.mk true true 5 1), Event.ownBatch [5] true true] [] false)
      rfl⟩

theorem dedupAppend_length_mono : ∀ (is : List Int) (acc : List Int),
    acc.length ≤ (dedupAppend acc is).length := by
  intro is
  induction is with
  | nil => intro acc; exact le_refl _
  | cons i is ih =>
      intro acc
      have h1 : acc.length ≤ (addOwn acc i).length := by
        unfold addOwn
        split
        · exact le_refl _
        · rw [List.length_append]; simp
      exact h1.trans (ih (addOwn acc i))

theorem dedupAppend_length : ∀ (l : List Int) (acc : List Int),
    (dedupAppend acc l).length = acc.length + countNew acc l := by
  intro l
  induction l with
  | nil => intro acc; simp [dedupAppend, countNew]
  | cons i is ih =>
      intro acc
      simp only [dedupAppend, countNew]
      rw [ih (addOwn acc i)]
      unfold addOwn
      split
      · simp
      · rw [List.length_append]
        simp only [List.length_singleton]
        omega

theorem mem_dedupAppend : ∀ {l : List Int} {acc : List Int} {a : Int},
    a ∈ dedupAppend acc l ↔ a ∈ acc ∨ a ∈ l := by
  intro l
  induction l with
  | nil => intro acc a; simp [dedupAppend]
  | cons i is ih =>
      intro acc a
      simp only [dedupAppend]
      rw [ih]
      unfold addOwn
      split
      · next hmem =>
          constructor
          · rintro (h | h)
            · exact Or.inl h
            · exact Or.inr (List.mem_cons_of_mem _ h)
          · rintro (h | h)
            · exact Or.inl h
            · rcases List.mem_cons.1 h with rfl | h
              · exact Or.inl hmem
              · exact Or.inr h
      · rw [List.mem_append, List.mem_singleton, List.mem_cons]
        tauto

theorem dedupAppend_of_fresh : ∀ {ids : List Int} {acc : List Int},
    ids.Nodup → (∀ i ∈ ids, i ∉ acc) → dedupAppend acc ids = acc ++ ids := by
  intro ids
  induction ids with
  | nil => intro acc _ _; simp [dedupAppend]
  | cons i is ih =>
      intro acc hnd hf
      simp only [dedupAppend]
      have hni : i ∉ acc := hf i (List.mem_cons_self i is)
      rw [show addOwn acc i = acc ++ [i] from by unfold addOwn; rw [if_neg hni]]
      rw [ih (List.Nodup.of_cons hnd)]
      · simp
      · intro j hj
        rw [List.mem_append, List.mem_singleton]
        rintro (hja | rfl)
        · exact hf j (List.mem_cons_of_mem _ hj) hja
        · exact (List.nodup_cons.1 hnd).1 hj

/-- Processing one valid own-authored hit that does not yet fill the
accumulator: the id is inserted when new, the hit is counted, and no batch
is submitted. -/
theorem processOneHit_own_step {myId : Int} {dfe isPrivate : Bool} {kw : Nat}
    {h : Hit} {st : LoopState}
    (hv : ownValid myId h)
    (hsm : (addOwn st.own h.msgId).length < 100) :
    processOneHit myId dfe isPrivate kw h st = some (ownStep h st) := by
  unfold ownStep
  obtain ⟨hok, hint, hpos, hauth⟩ := hv
  have hnle : ¬ h.msgId ≤ 0 := not_le.mpr hpos
  dsimp only [processOneHit]
  rw [if_neg (by simp [hok]), if_neg (by simp [hint, hnle])]
  have hcl : classifyHit myId dfe isPrivate kw h (markChecked (pushHitEvent h st)) =
      { st with
        own := addOwn st.own h.msgId
        stats := { st.stats with
          total_checked_api := st.stats.total_checked_api + 1
          total_found_own := st.stats.total_found_own +
            (if h.msgId ∈ st.own then 0 else 1) }
        trace := st.trace ++ [Event.hit h] } := by
    unfold classifyHit
    rw [if_pos hauth]
    by_cases hmem : h.msgId ∈ st.own
    · rw [if_pos hmem]
      unfold markChecked pushHitEvent addOwn
      rw [if_pos hmem, if_pos hmem]
      try simp
    · rw [if_neg hmem]
      unfold markChecked pushHitEvent addOwn
      rw [if_neg hmem, if_neg hmem]
      try simp
  rw [hcl]
  unfold thresholdFlush
  rw [if_neg (not_le.mpr hsm)]

theorem ownRun_nil (st : LoopState) : ownRun [] st = st := by
  unfold ownRun
  simp [dedupAppend, countNew]

theorem ownRun_cons (hd : Hit) (tl : List Hit) (st : LoopState) :
    ownRun tl (ownStep hd st) = ownRun (hd :: tl) st := by
  unfold ownRun ownStep
  simp [LoopState.mk.injEq, Stats.mk.injEq, dedupAppend, countNew,
    List.append_assoc, Nat.add_assoc, Nat.add_comm, Nat.add_left_comm]

theorem ownStep_error (h : Hit) (st : LoopState) :
    (ownStep h st).error = st.error := rfl

theorem ownStep_own (h : Hit) (st : LoopState) :
    (ownStep h st).own = addOwn st.own h.msgId := rfl

/-- A run of valid own-authored hits whose ids never fill the accumulator:
the accumulator collects the new ids in order, every hit is counted as
checked, each distinct new id is counted as found, and no batch is
submitted. -/
theorem processHits_own_run {myId : Int} {dfe isPrivate : Bool} {kw : Nat} :
    ∀ {hits : List Hit} {st : LoopState},
      (∀ h ∈ hits, ownValid myId h) →
      st.error = false →
      (dedupAppend st.own (hits.map Hit.msgId)).length < 100 →
      processHits myId dfe isPrivate kw hits st = some (ownRun hits st) := by
  intro hits
  induction hits with
  | nil =>
      intro st hv herr hsm
      rw [ownRun_nil]
      simp only [processHits]
  | cons hd tl ih =>
      intro st hv herr hsm
      have hsm1 : (addOwn st.own hd.msgId).length < 100 :=
        lt_of_le_of_lt (dedupAppend_length_mono (tl.map Hit.msgId) _)
          (by simpa [dedupAppend] using hsm)
      simp only [processHits]
      rw [processOneHit_own_step (hv hd (List.mem_cons_self hd tl)) hsm1]
      have herr' : (ownStep hd st).error = false := by rw [ownStep_error]; exact herr
      dsimp only
      rw [herr']
      simp only [Bool.false_eq_true, if_false]
      rw [ih (fun x hx => hv x (List.mem_cons_of_mem _ hx)) herr'
        (by simpa [dedupAppend, ownStep_own] using hsm)]
      rw [ownRun_cons]

theorem ownRun_own (hits : List Hit) (st : LoopState) :
    (ownRun hits st).own = dedupAppend st.own (hits.map Hit.msgId) := rfl

theorem ownRun_error2 (hits : List Hit) (st : LoopState) :
    (ownRun hits st).error = st.error := rfl

theorem ownRun_other (hits : List Hit) (st : LoopState) :
    (ownRun hits st).other = st.other := rfl

theorem ownRun_oracle (hits : List Hit) (st : LoopState) :
    (ownRun hits st).oracle = st.oracle := rfl

theorem ownRun_trace (hits : List Hit) (st : LoopState) :
    (ownRun hits st).trace = st.trace ++ hits.map Event.hit := rfl

theorem ownFlushStep_own (dfe : Bool) (h : Hit) (rest : List DeleteOutcome)
    (st : LoopState) : (ownFlushStep dfe h rest st).own = [] := rfl

theorem ownFlushStep_error (dfe : Bool) (h : Hit) (rest : List DeleteOutcome)
    (st : LoopState) : (ownFlushStep dfe h rest st).error = st.error := rfl

theorem ownFlushStep_other (dfe : Bool) (h : Hit) (rest : List DeleteOutcome)
    (st : LoopState) : (ownFlushStep dfe h rest st).other = st.other := rfl

theorem ownFlushStep_oracle (dfe : Bool) (h : Hit) (rest : List DeleteOutcome)
    (st : LoopState) : (ownFlushStep dfe h rest st).oracle = rest := rfl

theorem ownFlushStep_trace (dfe : Bool) (h : Hit) (rest : List DeleteOutcome)
    (st : LoopState) :
    (ownFlushStep dfe h rest st).trace = st.trace ++
      [Event.hit h, Event.ownBatch (sortInts (st.own ++ [h.msgId])) dfe false] := rfl

/-- On a non-empty id list with a success outcome at the head of the
oracle, the batch controller succeeds in one remote call, bumping the
per-mode deleted counter by the batch size. -/
theorem delete_batch_ok {ids : List Int} (hne : ids ≠ []) (rv : Bool)
    (rest : List DeleteOutcome) (s : Stats) :
    delete_batch_own_messages ids rv (DeleteOutcome.ok :: rest) s =
      some ⟨true, bumpDeleted rv ids.length s, [⟨ids, rv⟩], [], rest⟩ := by
  cases ids with
  | nil => exact absurd rfl hne
  | cons i is => rfl

/-- Processing one valid own-authored fresh hit when the accumulator holds
99 ids and the next oracle outcome is a success: the accumulator reaches
100, the sorted batch is submitted mid-search with the selected mode, the
delete succeeds and the accumulator is cleared. -/
theorem processOneHit_own_flush_step {myId : Int} {dfe isPrivate : Bool}
    {kw : Nat} {h : Hit} {st : LoopState} {rest : List DeleteOutcome}
    (hv : ownValid myId h) (hnm : h.msgId ∉ st.own)
    (hlen : st.own.length = 99)
    (horacle : st.oracle = DeleteOutcome.ok :: rest) :
    processOneHit myId dfe isPrivate kw h st =
      some (ownFlushStep dfe h rest st) := by
  unfold ownFlushStep
  obtain ⟨hok, hint, hpos, hauth⟩ := hv
  have hnle : ¬ h.msgId ≤ 0 := not_le.mpr hpos
  dsimp only [processOneHit]
  rw [if_neg (by simp [hok]), if_neg (by simp [hint, hnle])]
  have hcl : classifyHit myId dfe isPrivate kw h (markChecked (pushHitEvent h st)) =
      { st with
        own := st.own ++ [h.msgId]
        stats := { st.stats with
          total_checked_api := st.stats.total_checked_api + 1
          total_found_own := st.stats.total_found_own + 1 }
        trace := st.trace ++ [Event.hit h] } := by
    unfold classifyHit
    have hnm' : h.msgId ∉ (markChecked (pushHitEvent h st)).own := hnm
    rw [if_pos hauth, if_neg hnm']
    simp [markChecked, pushHitEvent]
  rw [hcl]
  unfold thresholdFlush
  have hlen2 : (st.own ++ [h.msgId]).length = 100 := by
    rw [List.length_append, hlen]
    rfl
  rw [if_pos (by simpa using hlen2.ge)]
  have hne2 : st.own ++ [h.msgId] ≠ [] := by
    intro hc
    rw [hc] at hlen2
    simp at hlen2
  dsimp only
  rw [horacle, delete_batch_ok (sortInts_ne_nil hne2)]
  dsimp only
  rw [if_pos rfl]
  rw [sortInts_length, hlen2]
  simp [List.append_assoc]

/-- Splitting the message loop at a list append: the second part runs only
when the first completed without marking the chat failed. -/
theorem processHits_append {myId : Int} {dfe isPrivate : Bool} {kw : Nat} :
    ∀ {xs ys : List Hit} {st : LoopState},
      st.error = false →
      processHits myId dfe isPrivate kw (xs ++ ys) st =
        match processHits myId dfe isPrivate kw xs st with
        | none => none
        | some st1 =>
            if st1.error then some st1
            else processHits myId dfe isPrivate kw ys st1 := by
  intro xs
  induction xs with
  | nil =>
      intro ys st herr
      simp only [List.nil_append, processHits]
      rw [herr]
      simp
  | cons x xs ih =>
      intro ys st herr
      simp only [List.cons_append, processHits]
      cases heq : processOneHit myId dfe isPrivate kw x st with
      | none => rfl
      | some st1 =>
          dsimp only
          cases he : st1.error
          · simp only [Bool.false_eq_true, if_false]
            exact ih he
          · simp [he]

theorem ownBatchEvents_append (a b : List Event) :
    ownBatchEvents (a ++ b) = ownBatchEvents a ++ ownBatchEvents b := by
  unfold ownBatchEvents
  rw [List.filterMap_append]

theorem ownBatchEvents_hits (l : List Hit) :
    ownBatchEvents (l.map Event.hit) = [] := by
  unfold ownBatchEvents
  induction l with
  | nil => rfl
  | cons x xs ih => simpa using ih

theorem foreignPhase_skip {st : LoopState} (h : st.other = []) :
    foreignPhase st = some st := by
  unfold foreignPhase
  rw [if_pos (by simp [h])]

/-- The final flush on a non-empty accumulator with a success outcome at
the head of the oracle: the sorted accumulator is submitted as the final
batch with the selected mode, the delete succeeds, and the accumulator is
cleared. -/
theorem finalFlushPhase_ok {dfe : Bool} {st : LoopState}
    {rest : List DeleteOutcome}
    (hne : st.own ≠ []) (herr : st.error = false)
    (horacle : st.oracle = DeleteOutcome.ok :: rest) :
    finalFlushPhase dfe st =
      some { st with
        own := []
        stats := bumpDeleted dfe st.own.length st.stats
        trace := st.trace ++ [Event.ownBatch (sortInts st.own) dfe true]
        oracle := rest } := by
  unfold finalFlushPhase
  have hie : st.own.isEmpty = false := by
    cases hx : st.own
    · exact absurd hx hne
    · rfl
  rw [if_neg (by simp [hie, herr])]
  rw [horacle, delete_batch_ok (sortInts_ne_nil hne)]
  dsimp only
  rw [if_pos rfl, sortInts_length]

theorem ownValid_map {myId : Int} {l : List Int} (hp : ∀ i ∈ l, 0 < i) :
    ∀ h ∈ l.map (mkOwnHit myId), ownValid myId h := by
  intro h hh
  rcases List.mem_map.1 hh with ⟨i, hi, rfl⟩
  exact ⟨rfl, rfl, hp i hi, rfl⟩

theorem map_msgId_mkOwnHit (myId : Int) (l : List Int) :
    (l.map (mkOwnHit myId)).map Hit.msgId = l := by
  induction l with
  | nil => rfl
  | cons i is ih =>
      simp only [List.map_cons]
      rw [ih]
      rfl

/-- Claim C7: one chat, one keyword whose search yields 150 distinct
operator-authored messages, all deletions succeeding: exactly two batch
submissions are recorded — a mid-search threshold flush of the first 100
ids (sorted), then the final flush of the remaining 50 ids (sorted) — and
both carry a revoke flag equal to the selected deletion mode. -/
theorem C7_two_batches {myId : Int} {dfe isPriv : Bool} {kw : Nat}
    {ids : List Int} {s : Stats} {o3 : List DeleteOutcome}
    (hlen : ids.length = 150) (hnd : ids.Nodup) (hpos : ∀ i ∈ ids, 0 < i) :
    ∃ res, processChat myId dfe
        (ChatSpec.mk isPriv [KeywordSearch.mk kw (ids.map (mkOwnHit myId)) none])
        s (DeleteOutcome.ok :: DeleteOutcome.ok :: o3) = some res ∧
      ownBatchEvents res.trace =
        [(sortInts (ids.take 100), dfe, false),
         (sortInts (ids.drop 100), dfe, true)] ∧
      (sortInts (ids.take 100)).length = 100 ∧
      (sortInts (ids.drop 100)).length = 50 := by
  have hAlen : (ids.take 100).length = 100 := by
    rw [List.length_take]
    omega
  have hBlen : (ids.drop 100).length = 50 := by
    rw [List.length_drop, hlen]
  have hAB : ids.take 100 ++ ids.drop 100 = ids := List.take_append_drop 100 ids
  rcases List.eq_nil_or_concat (ids.take 100) with hA0 | ⟨A', m, hAcat⟩
  · rw [hA0] at hAlen
    simp at hAlen
  have hAcat' : ids.take 100 = A' ++ [m] := by
    rw [hAcat, List.concat_eq_append]
  have hids : ids = (A' ++ [m]) ++ ids.drop 100 := by
    rw [← hAcat']
    exact hAB.symm
  have hndA : (ids.take 100).Nodup := hnd.sublist (List.take_sublist 100 ids)
  have hndB : (ids.drop 100).Nodup := hnd.sublist (List.drop_sublist 100 ids)
  have hndA' : A'.Nodup ∧ m ∉ A' := by
    rw [hAcat'] at hndA
    constructor
    · exact hndA.sublist (List.sublist_append_left A' [m])
    · intro hm
      rcases List.nodup_append.1 hndA with ⟨_, _, hdisj⟩
      exact hdisj hm (List.mem_singleton_self m)
  have hA'len : A'.length = 99 := by
    have := hAlen
    rw [hAcat', List.length_append, List.length_singleton] at this
    omega
  have hsubA : ∀ i ∈ ids.take 100, i ∈ ids := fun i hi => List.take_subset 100 ids hi
  have hsubA' : ∀ i ∈ A', 0 < i := fun i hi =>
    hpos i (hsubA i (by rw [hAcat']; exact List.mem_append_left _ hi))
  have hmpos : 0 < m :=
    hpos m (hsubA m (by rw [hAcat']; exact List.mem_append_right _ (List.mem_singleton_self m)))
  have hsubB : ∀ i ∈ ids.drop 100, 0 < i := fun i hi =>
    hpos i (List.drop_subset 100 ids hi)
  -- the initial per-chat state
  have hinit_err : (initLoopState s (DeleteOutcome.ok :: DeleteOutcome.ok :: o3)).error = false := rfl
  -- first 99 hits accumulate without a flush
  have hsmallA : (dedupAppend
      (initLoopState s (DeleteOutcome.ok :: DeleteOutcome.ok :: o3)).own
      ((A'.map (mkOwnHit myId)).map Hit.msgId)).length < 100 := by
    rw [map_msgId_mkOwnHit]
    rw [show (initLoopState s (DeleteOutcome.ok :: DeleteOutcome.ok :: o3)).own = [] from rfl]
    rw [dedupAppend_of_fresh hndA'.1 (fun i _ => List.not_mem_nil i), List.nil_append, hA'len]
    omega
  have hr1 := @processHits_own_run myId dfe isPriv kw (A'.map (mkOwnHit myId))
    (initLoopState s (DeleteOutcome.ok :: DeleteOutcome.ok :: o3))
    (ownValid_map hsubA') hinit_err hsmallA
  -- the state after the first 99 hits
  have hst1own : (ownRun (A'.map (mkOwnHit myId))
      (initLoopState s (DeleteOutcome.ok :: DeleteOutcome.ok :: o3))).own = A' := by
    rw [ownRun_own, map_msgId_mkOwnHit]
    rw [show (initLoopState s (DeleteOutcome.ok :: DeleteOutcome.ok :: o3)).own = [] from rfl]
    rw [dedupAppend_of_fresh hndA'.1 (fun i _ => List.not_mem_nil i), List.nil_append]
  -- the 100th hit triggers the threshold flush
  have hr2 := @processOneHit_own_flush_step myId dfe isPriv kw
    (mkOwnHit myId m)
    (ownRun (A'.map (mkOwnHit myId))
      (initLoopState s (DeleteOutcome.ok :: DeleteOutcome.ok :: o3)))
    (DeleteOutcome.ok :: o3)
    ⟨rfl, rfl, hmpos, rfl⟩
    (by rw [show (mkOwnHit myId m).msgId = m from rfl, hst1own]; exact hndA'.2)
    (by rw [hst1own]; exact hA'len)
    rfl
  -- the last 50 hits accumulate without a flush
  have hsmallB : (dedupAppend
      (ownFlushStep dfe (mkOwnHit myId m) (DeleteOutcome.ok :: o3)
        (ownRun (A'.map (mkOwnHit myId))
          (initLoopState s (DeleteOutcome.ok :: DeleteOutcome.ok :: o3)))).own
      (((ids.drop 100).map (mkOwnHit myId)).map Hit.msgId)).length < 100 := by
    rw [map_msgId_mkOwnHit, ownFlushStep_own]
    rw [dedupAppend_of_fresh hndB (fun i _ => List.not_mem_nil i), List.nil_append, hBlen]
    omega
  have hr3 := @processHits_own_run myId dfe isPriv kw
    ((ids.drop 100).map (mkOwnHit myId))
    (ownFlushStep dfe (mkOwnHit myId m) (DeleteOutcome.ok :: o3)
      (ownRun (A'.map (mkOwnHit myId))
        (initLoopState s (DeleteOutcome.ok :: DeleteOutcome.ok :: o3))))
    (ownValid_map hsubB)
    (by rw [ownFlushStep_error, ownRun_error2]; exact hinit_err) hsmallB
  -- the full message loop for the single keyword
  have hKhits : processHits myId dfe isPriv kw
      (ids.map (mkOwnHit myId))
      (initLoopState s (DeleteOutcome.ok :: DeleteOutcome.ok :: o3)) =
      some (ownRun ((ids.drop 100).map (mkOwnHit myId))
        (ownFlushStep dfe (mkOwnHit myId m) (DeleteOutcome.ok :: o3)
          (ownRun (A'.map (mkOwnHit myId))
            (initLoopState s (DeleteOutcome.ok :: DeleteOutcome.ok :: o3))))) := by
    conv_lhs => rw [hids]
    rw [List.map_append, List.map_append]
    rw [processHits_append hinit_err, processHits_append hinit_err, hr1]
    have he1 : (ownRun (A'.map (mkOwnHit myId))
        (initLoopState s (DeleteOutcome.ok :: DeleteOutcome.ok :: o3))).error
        = false := rfl
    dsimp only
    rw [he1]
    simp only [Bool.false_eq_true, if_false, List.map_cons, List.map_nil]
    simp only [processHits]
    rw [hr2]
    have he2 : (ownFlushStep dfe (mkOwnHit myId m) (DeleteOutcome.ok :: o3)
        (ownRun (A'.map (mkOwnHit myId))
          (initLoopState s (DeleteOutcome.ok :: DeleteOutcome.ok :: o3)))).error
        = false := rfl
    dsimp only
    rw [he2]
    simp only [Bool.false_eq_true, if_false]
    exact hr3
  -- the state after the keyword loop
  have hST3own : (ownRun ((ids.drop 100).map (mkOwnHit myId))
      (ownFlushStep dfe (mkOwnHit myId m) (DeleteOutcome.ok :: o3)
        (ownRun (A'.map (mkOwnHit myId))
          (initLoopState s (DeleteOutcome.ok :: DeleteOutcome.ok :: o3))))).own
      = ids.drop 100 := by
    rw [ownRun_own, map_msgId_mkOwnHit, ownFlushStep_own,
      dedupAppend_of_fresh hndB (fun i _ => List.not_mem_nil i), List.nil_append]
  have hST3ne : (ownRun ((ids.drop 100).map (mkOwnHit myId))
      (ownFlushStep dfe (mkOwnHit myId m) (DeleteOutcome.ok :: o3)
        (ownRun (A'.map (mkOwnHit myId))
          (initLoopState s (DeleteOutcome.ok :: DeleteOutcome.ok :: o3))))).own
      ≠ [] := by
    rw [hST3own]
    intro hc
    rw [hc] at hBlen
    simp at hBlen
  have hfin := @finalFlushPhase_ok dfe
    (ownRun ((ids.drop 100).map (mkOwnHit myId))
      (ownFlushStep dfe (mkOwnHit myId m) (DeleteOutcome.ok :: o3)
        (ownRun (A'.map (mkOwnHit myId))
          (initLoopState s (DeleteOutcome.ok :: DeleteOutcome.ok :: o3)))))
    o3 hST3ne rfl rfl
  set ST3 := ownRun ((ids.drop 100).map (mkOwnHit myId))
      (ownFlushStep dfe (mkOwnHit myId m) (DeleteOutcome.ok :: o3)
        (ownRun (A'.map (mkOwnHit myId))
          (initLoopState s (DeleteOutcome.ok :: DeleteOutcome.ok :: o3)))) with hST3
  have hother : ST3.other = [] := by rw [hST3]; rfl
  refine ⟨{ ST3 with
      own := ([] : List Int)
      stats := bumpDeleted dfe ST3.own.length ST3.stats
      trace := ST3.trace ++ [Event.ownBatch (sortInts ST3.own) dfe true]
      oracle := o3 }, ?_, ?_, ?_, ?_⟩
  · unfold processChat
    dsimp only
    simp only [processKeywords, processKeyword]
    rw [hKhits]
    dsimp only
    simp only [ite_self]
    try dsimp only
    rw [foreignPhase_skip hother]
    try dsimp only
    exact hfin
  · show ownBatchEvents (ST3.trace ++ [Event.ownBatch (sortInts ST3.own) dfe true]) = _
    rw [hST3own]
    rw [hST3, ownRun_trace, ownFlushStep_trace, ownRun_trace]
    simp only [ownBatchEvents_append, ownBatchEvents_hits]
    rw [hst1own]
    have hbe : ownBatchEvents
        [Event.hit (mkOwnHit myId m),
         Event.ownBatch (sortInts (A' ++ [(mkOwnHit myId m).msgId])) dfe false] =
        [(sortInts (A' ++ [(mkOwnHit myId m).msgId]), dfe, false)] := rfl
    rw [hbe]
    have hmsg : A' ++ [(mkOwnHit myId m).msgId] = ids.take 100 := by
      rw [show (mkOwnHit myId m).msgId = m from rfl, ← hAcat']
    rw [hmsg]
    have hinit_tr : (initLoopState s
        (DeleteOutcome.ok :: DeleteOutcome.ok :: o3)).trace = [] := rfl
    rw [hinit_tr]
    simp [ownBatchEvents]
  · rw [sortInts_length, hAlen]
  · rw [sortInts_length, hBlen]

set_option maxRecDepth 100000 in
/-- Witness for C7 at a concrete input: the ids 1 to 150, delete-for-all
mode, all deletes succeeding. -/
theorem C7_two_batches_witness :
    ∃ res, processChat 1 true
        (ChatSpec.mk true [KeywordSearch.mk 0 (oneTo150.map (mkOwnHit 1)) none])
        initialStats (DeleteOutcome.ok :: DeleteOutcome.ok :: []) = some res ∧
      ownBatchEvents res.trace =
        [(sortInts (oneTo150.take 100), true, false),
         (sortInts (oneTo150.drop 100), true, true)] ∧
      (sortInts (oneTo150.take 100)).length = 100 ∧
      (sortInts (oneTo150.drop 100)).length = 50 :=
  C7_two_batches (by decide) (by decide) (by decide)

theorem dedupAppend_append : ∀ (xs ys : List Int) (acc : List Int),
    dedupAppend acc (xs ++ ys) = dedupAppend (dedupAppend acc xs) ys := by
  intro xs
  induction xs with
  | nil => intro ys acc; rfl
  | cons x xs ih =>
      intro ys acc
      simp only [List.cons_append, dedupAppend]
      exact ih ys (addOwn acc x)

theorem ownRun_stats_found (hits : List Hit) (st : LoopState) :
    (ownRun hits st).stats.total_found_own =
      st.stats.total_found_own + countNew st.own (hits.map Hit.msgId) := rfl

/-- Whenever the final flush runs on a non-empty accumulator of a chat not
marked failed and completes, it submits the sorted accumulator exactly
once (recorded as the final batch event) and the batch controller leaves
total_found_own unchanged. -/
theorem finalFlushPhase_submits {dfe : Bool} {st st' : LoopState}
    (hne : st.own.isEmpty = false) (herr : st.error = false)
    (hr : finalFlushPhase dfe st = some st') :
    st'.trace = st.trace ++ [Event.ownBatch (sortInts st.own) dfe true] ∧
    st'.stats.total_found_own = st.stats.total_found_own := by
  unfold finalFlushPhase at hr
  rw [if_neg (by simp [hne, herr])] at hr
  cases heq : delete_batch_own_messages (sortInts st.own) dfe st.oracle st.stats with
  | none => rw [heq] at hr; cases hr
  | some r =>
      rw [heq] at hr
      have hp := delete_batch_preserves heq
      cases hs : r.success <;> simp only [hs] at hr
      · simp only [Bool.false_eq_true, if_false, Option.some.injEq] at hr
        subst hr
        exact ⟨rfl, hp.2.1⟩
      · rw [if_pos trivial] at hr
        simp only [Option.some.injEq] at hr
        subst hr
        exact ⟨rfl, hp.2.1⟩

theorem ownBatchList_append (a b : List Event) :
    ownBatchList (a ++ b) = ownBatchList a ++ ownBatchList b := by
  unfold ownBatchList
  rw [List.filterMap_append]

theorem ownBatchList_hits (l : List Hit) :
    ownBatchList (l.map Event.hit) = [] := by
  unfold ownBatchList
  induction l with
  | nil => rfl
  | cons x xs ih => simpa using ih

/-- Claim C4 amended: when two keyword searches in one chat both return
the operator's message id m and the chat accumulates fewer than 100
distinct own ids over both searches (so no threshold flush clears the
accumulator in between), m appears in exactly one submitted batch for the
chat and every distinct own id — m included — is counted exactly once in
total_found_own. -/
theorem C4_dedup_amended {myId : Int} {dfe isPriv : Bool} {k1 k2 : Nat}
    {ids1 ids2 : List Int} {s : Stats} {oracle : List DeleteOutcome} {m : Int}
    {res : LoopState}
    (hpos1 : ∀ i ∈ ids1, 0 < i) (hpos2 : ∀ i ∈ ids2, 0 < i)
    (hm1 : m ∈ ids1) (hm2 : m ∈ ids2)
    (hsmall : (dedupAppend [] (ids1 ++ ids2)).length < 100)
    (hr : processChat myId dfe
        (ChatSpec.mk isPriv
          [KeywordSearch.mk k1 (ids1.map (mkOwnHit myId)) none,
           KeywordSearch.mk k2 (ids2.map (mkOwnHit myId)) none])
        s oracle = some res) :
    (ownBatchList res.trace).countP (fun b => b.1.contains m) = 1 ∧
    res.stats.total_found_own
      = s.total_found_own + (dedupAppend [] (ids1 ++ ids2)).length := by
  have hsplit := dedupAppend_append ids1 ids2 []
  have hsmall1 : (dedupAppend ([] : List Int) ids1).length < 100 := by
    have := dedupAppend_length_mono ids2 (dedupAppend [] ids1)
    rw [← hsplit] at this
    omega
  have hinit_err : (initLoopState s oracle).error = false := rfl
  have hr1 := @processHits_own_run myId dfe isPriv k1
    (ids1.map (mkOwnHit myId)) (initLoopState s oracle)
    (ownValid_map hpos1) hinit_err
    (by rw [map_msgId_mkOwnHit]; exact hsmall1)
  have hST1own : (ownRun (ids1.map (mkOwnHit myId)) (initLoopState s oracle)).own
      = dedupAppend [] ids1 := by
    rw [ownRun_own, map_msgId_mkOwnHit]
    rfl
  have hsmall2 : (dedupAppend
      (ownRun (ids1.map (mkOwnHit myId)) (initLoopState s oracle)).own
      ((ids2.map (mkOwnHit myId)).map Hit.msgId)).length < 100 := by
    rw [map_msgId_mkOwnHit, hST1own, ← hsplit]
    exact hsmall
  have hr2 := @processHits_own_run myId dfe isPriv k2
    (ids2.map (mkOwnHit myId))
    (ownRun (ids1.map (mkOwnHit myId)) (initLoopState s oracle))
    (ownValid_map hpos2)
    (show (ownRun (ids1.map (mkOwnHit myId)) (initLoopState s oracle)).error = false from rfl)
    hsmall2
  set ST2 := ownRun (ids2.map (mkOwnHit myId))
      (ownRun (ids1.map (mkOwnHit myId)) (initLoopState s oracle)) with hST2
  have hST2own : ST2.own = dedupAppend [] (ids1 ++ ids2) := by
    rw [hST2, ownRun_own, map_msgId_mkOwnHit, hST1own, hsplit]
  have hmD : m ∈ ST2.own := by
    rw [hST2own]
    exact mem_dedupAppend.2 (Or.inr (List.mem_append_left _ hm1))
  have hST2ne : ST2.own.isEmpty = false := by
    cases hx : ST2.own
    · rw [hx] at hmD; cases hmD
    · rfl
  have hST2err : ST2.error = false := by rw [hST2]; rfl
  have hother : ST2.other = [] := by rw [hST2]; rfl
  -- run the chat
  unfold processChat at hr
  dsimp only at hr
  simp only [processKeywords, processKeyword] at hr
  rw [hr1] at hr
  dsimp only at hr
  simp only [ite_self] at hr
  simp only [show (ownRun (ids1.map (mkOwnHit myId)) (initLoopState s oracle)).error
    = false from rfl, Bool.false_eq_true, if_false] at hr
  rw [hr2] at hr
  try dsimp only at hr
  try simp only [ite_self] at hr
  rw [foreignPhase_skip hother] at hr
  try dsimp only at hr
  have hsub := finalFlushPhase_submits hST2ne hST2err hr
  constructor
  · rw [hsub.1]
    have htr : ST2.trace = (ids1.map (mkOwnHit myId)).map Event.hit
        ++ (ids2.map (mkOwnHit myId)).map Event.hit := by
      rw [hST2, ownRun_trace, ownRun_trace]
      rw [show (initLoopState s oracle).trace = [] from rfl]
      rw [List.nil_append]
    rw [htr]
    rw [ownBatchList_append, ownBatchList_append, ownBatchList_hits, ownBatchList_hits]
    have hmem : m ∈ sortInts ST2.own := sortInts_mem.2 hmD
    have hcont : (sortInts ST2.own).contains m = true :=
      List.elem_eq_true_of_mem hmem
    have hev : ownBatchList [Event.ownBatch (sortInts ST2.own) dfe true]
        = [(sortInts ST2.own, dfe)] := rfl
    rw [hev]
    simp [List.countP_cons, hcont, hmem]
  · rw [hsub.2, hST2, ownRun_stats_found, ownRun_stats_found, map_msgId_mkOwnHit,
      map_msgId_mkOwnHit, hST1own]
    rw [show (initLoopState s oracle).stats.total_found_own = s.total_found_own from rfl]
    rw [show (initLoopState s oracle).own = ([] : List Int) from rfl]
    have hsplitlen : (dedupAppend [] (ids1 ++ ids2)).length
        = (dedupAppend (dedupAppend [] ids1) ids2).length := by rw [hsplit]
    have hl1 := dedupAppend_length ids1 []
    have hl2 := dedupAppend_length ids2 (dedupAppend [] ids1)
    simp only [List.length_nil] at hl1
    omega

/-- Witness for the amended C4 at a concrete input: both keywords match
message id 42 only; 42 ends in one batch and is counted once. -/
theorem C4_dedup_amended_witness :
    ∃ res, processChat 1 true
        (ChatSpec.mk true
          [KeywordSearch.mk 0 (([42] : List Int).map (mkOwnHit 1)) none,
           KeywordSearch.mk 1 (([42] : List Int).map (mkOwnHit 1)) none])
        initialStats [DeleteOutcome.ok] = some res ∧
      ((ownBatchList res.trace).countP (fun b => b.1.contains 42) = 1 ∧
       res.stats.total_found_own
         = initialStats.total_found_own
           + (dedupAppend [] (([42] : List Int) ++ [42])).length) :=
  ⟨LoopState.mk [] []
      { initialStats with
        total_checked_api := 2
        total_found_own := 1
        deleted_for_all := 1 }
      [Event.hit (Hit.mk true true 42 1), Event.hit (Hit.mk true true 42 1),
       Event.ownBatch [42] true true] [] false,
    rfl,
    @C4_dedup_amended 1 true true 0 1 [42] [42] initialStats [DeleteOutcome.ok] 42
      (LoopState.mk [] []
        { initialStats with
          total_checked_api := 2
          total_found_own := 1
          deleted_for_all := 1 }
        [Event.hit (Hit.mk true true 42 1), Event.hit (Hit.mk true true 42 1),
         Event.ownBatch [42] true true] [] false)
      (by decide) (by decide) (by decide) (by decide) (by decide) rfl⟩

/-- A threshold flush appends no foreign-attempt event to the trace. -/
theorem thresholdFlush_noForeign {dfe : Bool} {st st' : LoopState}
    (hr : thresholdFlush dfe st = some st')
    (h : ∀ e ∈ st.trace, isForeignEvent e = false) :
    ∀ e ∈ st'.trace, isForeignEvent e = false := by
  unfold thresholdFlush at hr
  split at hr
  · cases heq : delete_batch_own_messages (sortInts st.own) dfe st.oracle st.stats with
    | none => rw [heq] at hr; cases hr
    | some r =>
        rw [heq] at hr
        have hall : ∀ e ∈ st.trace ++ [Event.ownBatch (sortInts st.own) dfe false],
            isForeignEvent e = false := by
          intro e he
          rcases List.mem_append.1 he with he | he
          · exact h e he
          · rw [List.mem_singleton] at he
            subst he
            rfl
        cases hs : r.success <;> simp only [hs] at hr
        · simp only [Bool.false_eq_true, if_false, Option.some.injEq] at hr
          subst hr
          exact hall
        · rw [if_pos trivial] at hr
          simp only [Option.some.injEq] at hr
          subst hr
          exact hall
  · cases hr
    exact h

/-- Processing one search hit appends no foreign-attempt event. -/
theorem processOneHit_noForeign {myId : Int} {dfe isPrivate : Bool} {kw : Nat}
    {h : Hit} {st st' : LoopState}
    (hr : processOneHit myId dfe isPrivate kw h st = some st')
    (hT : ∀ e ∈ st.trace, isForeignEvent e = false) :
    ∀ e ∈ st'.trace, isForeignEvent e = false := by
  have hTpush : ∀ e ∈ st.trace ++ [Event.hit h], isForeignEvent e = false := by
    intro e he
    rcases List.mem_append.1 he with he | he
    · exact hT e he
    · rw [List.mem_singleton] at he
      subst he
      rfl
  dsimp only [processOneHit] at hr
  split at hr
  · cases hr; exact hTpush
  · split at hr
    · cases hr; exact hTpush
    · refine thresholdFlush_noForeign hr ?_
      rw [(classifyHit_frame2 myId dfe isPrivate kw h
        (markChecked (pushHitEvent h st))).1]
      exact hTpush

/-- The message loop appends no foreign-attempt event. -/
theorem processHits_noForeign {myId : Int} {dfe isPrivate : Bool} {kw : Nat} :
    ∀ {hits : List Hit} {st st' : LoopState},
      processHits myId dfe isPrivate kw hits st = some st' →
      (∀ e ∈ st.trace, isForeignEvent e = false) →
      ∀ e ∈ st'.trace, isForeignEvent e = false := by
  intro hits
  induction hits with
  | nil =>
      intro st st' h hT
      simp only [processHits, Option.some.injEq] at h
      subst h
      exact hT
  | cons hd tl ih =>
      intro st st' h hT
      simp only [processHits] at h
      cases heq : processOneHit myId dfe isPrivate kw hd st with
      | none => rw [heq] at h; cases h
      | some st1 =>
          rw [heq] at h
          have h1 := processOneHit_noForeign heq hT
          cases he : st1.error <;> simp only [he] at h
          · simp only [Bool.false_eq_true, if_false] at h
            exact ih h h1
          · rw [if_pos trivial] at h
            simp only [Option.some.injEq] at h
            subst h
            exact h1

/-- One keyword's processing appends no foreign-attempt event. -/
theorem processKeyword_noForeign {myId : Int} {dfe isPrivate : Bool}
    {k : KeywordSearch} {st st' : LoopState}
    (hr : processKeyword myId dfe isPrivate k st = some st')
    (hT : ∀ e ∈ st.trace, isForeignEvent e = false) :
    ∀ e ∈ st'.trace, isForeignEvent e = false := by
  unfold processKeyword at hr
  cases heq : processHits myId dfe isPrivate k.keyword k.hits st with
  | none => rw [heq] at hr; cases hr
  | some st1 =>
      rw [heq] at hr
      have h1 := processHits_noForeign heq hT
      cases he : st1.error <;> simp only [he] at hr
      · simp only [Bool.false_eq_true, if_false] at hr
        cases hf : k.fault with
        | none => rw [hf] at hr; cases hr; exact h1
        | some f =>
            rw [hf] at hr
            cases f with
            | floodWait w => cases hr; exact h1
            | access => cases hr; exact h1
            | queryEmpty => cases hr; exact h1
            | other => cases hr; exact h1
      · rw [if_pos trivial] at hr
        simp only [Option.some.injEq] at hr
        subst hr
        exact h1

/-- The keyword loop appends no foreign-attempt event. -/
theorem processKeywords_noForeign {myId : Int} {dfe isPrivate : Bool} :
    ∀ {ks : List KeywordSearch} {st st' : LoopState},
      processKeywords myId dfe isPrivate ks st = some st' →
      (∀ e ∈ st.trace, isForeignEvent e = false) →
      ∀ e ∈ st'.trace, isForeignEvent e = false := by
  intro ks
  induction ks with
  | nil =>
      intro st st' h hT
      simp only [processKeywords, Option.some.injEq] at h
      subst h
      exact hT
  | cons k ks ih =>
      intro st st' h hT
      simp only [processKeywords] at h
      cases heq : processKeyword myId dfe isPrivate k st with
      | none => rw [heq] at h; cases h
      | some st1 =>
          rw [heq] at h
          have h1 := processKeyword_noForeign heq hT
          cases he : st1.error <;> simp only [he] at h
          · simp only [Bool.false_eq_true, if_false] at h
            exact ih h h1
          · rw [if_pos trivial] at h
            simp only [Option.some.injEq] at h
            subst h
            exact h1

/-- The foreign-deletion loop only appends events that are not hit
examinations. -/
theorem processForeign_onlyAppends :
    ∀ {ps : List (Int × Nat)} {st st' : LoopState},
      processForeign ps st = some st' →
      ∃ B, st'.trace = st.trace ++ B ∧ ∀ e ∈ B, isHitEvent e = false := by
  intro ps
  induction ps with
  | nil =>
      intro st st' h
      simp only [processForeign, Option.some.injEq] at h
      subst h
      exact ⟨[], by simp, by simp⟩
  | cons p tl ih =>
      intro st st' h
      obtain ⟨mid, kw⟩ := p
      simp only [processForeign] at h
      cases heq : attempt_delete_other_message mid st.oracle st.stats with
      | none => rw [heq] at h; cases h
      | some out =>
          rw [heq] at h
          obtain ⟨s2, calls, sleeps, o2⟩ := out
          rcases ih h with ⟨B, hB, hBn⟩
          refine ⟨Event.foreignAttempt mid :: B, ?_, ?_⟩
          · rw [hB]
            simp
          · intro e he
            rcases List.mem_cons.1 he with rfl | he
            · rfl
            · exact hBn e he

/-- The foreign phase only appends events that are not hit examinations. -/
theorem foreignPhase_onlyAppends {st st' : LoopState}
    (hr : foreignPhase st = some st') :
    ∃ B, st'.trace = st.trace ++ B ∧ ∀ e ∈ B, isHitEvent e = false := by
  unfold foreignPhase at hr
  split at hr
  · cases hr
    exact ⟨[], by simp, by simp⟩
  · exact processForeign_onlyAppends hr

/-- The final flush only appends events that are not hit examinations. -/
theorem finalFlushPhase_onlyAppends {dfe : Bool} {st st' : LoopState}
    (hr : finalFlushPhase dfe st = some st') :
    ∃ B, st'.trace = st.trace ++ B ∧ ∀ e ∈ B, isHitEvent e = false := by
  unfold finalFlushPhase at hr
  split at hr
  · cases hr
    exact ⟨[], by simp, by simp⟩
  · cases heq : delete_batch_own_messages (sortInts st.own) dfe st.oracle st.stats with
    | none => rw [heq] at hr; cases hr
    | some r =>
        rw [heq] at hr
        have hone : ∀ e ∈ [Event.ownBatch (sortInts st.own) dfe true],
            isHitEvent e = false := by
          intro e he
          rw [List.mem_singleton] at he
          subst he
          rfl
        cases hs : r.success <;> simp only [hs] at hr
        · simp only [Bool.false_eq_true, if_false, Option.some.injEq] at hr
          subst hr
          exact ⟨[Event.ownBatch (sortInts st.own) dfe true], rfl, hone⟩
        · rw [if_pos trivial] at hr
          simp only [Option.some.injEq] at hr
          subst hr
          exact ⟨[Event.ownBatch (sortInts st.own) dfe true], rfl, hone⟩

/-- Every remote delete call issued by the foreign-deletion helper carries
exactly the one message id it was invoked with. -/
theorem attempt_calls_singleton :
    ∀ {orc : List DeleteOutcome} {mid : Int} {s : Stats}
      {out : Stats × List DelCall × List Nat × List DeleteOutcome},
      attempt_delete_other_message mid orc s = some out →
      ∀ cl ∈ out.2.1, cl.ids = [mid] := by
  intro orc
  induction orc with
  | nil => intro mid s out h; simp only [attempt_delete_other_message] at h; cases h
  | cons o rest ih =>
      intro mid s out h
      cases o with
      | ok =>
          simp only [attempt_delete_other_message, Option.some.injEq] at h
          subst h
          intro cl hcl
          rw [List.mem_singleton] at hcl
          subst hcl
          rfl
      | floodWait w =>
          simp only [attempt_delete_other_message] at h
          cases heq : attempt_delete_other_message mid rest
              { s with attempted_delete_other := s.attempted_delete_other + 1 } with
          | none => rw [heq] at h; cases h
          | some out' =>
              rw [heq] at h
              obtain ⟨s2, calls, sleeps, o2⟩ := out'
              simp only [Option.some.injEq] at h
              subst h
              intro cl hcl
              rcases List.mem_cons.1 hcl with rfl | hcl
              · rfl
              · exact ih heq cl hcl
      | timeout =>
          simp only [attempt_delete_other_message, Option.some.injEq] at h
          subst h
          intro cl hcl
          rw [List.mem_singleton] at hcl
          subst hcl
          rfl
      | forbidden =>
          simp only [attempt_delete_other_message, Option.some.injEq] at h
          subst h
          intro cl hcl
          rw [List.mem_singleton] at hcl
          subst hcl
          rfl
      | idsInvalid =>
          simp only [attempt_delete_other_message, Option.some.injEq] at h
          subst h
          intro cl hcl
          rw [List.mem_singleton] at hcl
          subst hcl
          rfl
      | otherError =>
          simp only [attempt_delete_other_message, Option.some.injEq] at h
          subst h
          intro cl hcl
          rw [List.mem_singleton] at hcl
          subst hcl
          rfl

/-- Claim C5 amended: foreign deletions are deferred, not immediate — the
trace of a completed chat splits into a first part (the whole keyword
loop) that contains no foreign deletion attempt and a second part (the
foreign phase and the final flush) that examines no further search hit;
and every remote delete call the foreign-deletion helper issues carries
exactly one message id, so foreign messages are never batched into a
multi-id delete call. -/
theorem C5_foreign_deferred {myId : Int} {dfe : Bool} {c : ChatSpec}
    {s : Stats} {oracle : List DeleteOutcome} {res : LoopState}
    (hr : processChat myId dfe c s oracle = some res) :
    (∃ A B, res.trace = A ++ B ∧
      (∀ e ∈ A, isForeignEvent e = false) ∧
      (∀ e ∈ B, isHitEvent e = false)) ∧
    (∀ (mid : Int) (orc : List DeleteOutcome) (s2 : Stats)
      (out : Stats × List DelCall × List Nat × List DeleteOutcome),
      attempt_delete_other_message mid orc s2 = some out →
      ∀ cl ∈ out.2.1, cl.ids = [mid]) := by
  constructor
  · unfold processChat at hr
    cases h1 : processKeywords myId dfe c.isPrivate c.searches (initLoopState s oracle) with
    | none => rw [h1] at hr; cases hr
    | some st1 =>
        rw [h1] at hr
        dsimp only at hr
        cases h2 : foreignPhase st1 with
        | none => rw [h2] at hr; cases hr
        | some st2 =>
            rw [h2] at hr
            dsimp only at hr
            have hA := processKeywords_noForeign h1
              (fun e he => absurd he (List.not_mem_nil e))
            rcases foreignPhase_onlyAppends h2 with ⟨B1, hB1, hB1n⟩
            rcases finalFlushPhase_onlyAppends hr with ⟨B2, hB2, hB2n⟩
            refine ⟨st1.trace, B1 ++ B2, ?_, hA, ?_⟩
            · rw [hB2, hB1, List.append_assoc]
            · intro e he
              rcases List.mem_append.1 he with he | he
              · exact hB1n e he
              · exact hB2n e he
  · intro mid orc s2 out h cl hcl
    exact attempt_calls_singleton h cl hcl

/-- Witness for the amended C5 at a concrete input: one foreign hit in a
private chat in delete-for-everyone mode; the attempt happens after the
hit examination and carries one id. -/
theorem C5_foreign_deferred_witness :
    ∃ res, processChat 1 true
        (ChatSpec.mk true [KeywordSearch.mk 0 [Hit.mk true true 7 2] none])
        initialStats [DeleteOutcome.forbidden] = some res ∧
      ((∃ A B, res.trace = A ++ B ∧
        (∀ e ∈ A, isForeignEvent e = false) ∧
        (∀ e ∈ B, isHitEvent e = false)) ∧
       (∀ (mid : Int) (orc : List DeleteOutcome) (s2 : Stats)
         (out : Stats × List DelCall × List Nat × List DeleteOutcome),
         attempt_delete_other_message mid orc s2 = some out →
         ∀ cl ∈ out.2.1, cl.ids = [mid])) :=
  ⟨LoopState.mk [] [(7, 0)]
      { initialStats with
        total_checked_api := 1
        total_found_other := 1
        attempted_delete_other := 1
        failed_to_delete_other := 1 }
      [Event.hit (Hit.mk true true 7 2), Event.foreignAttempt 7] [] false,
    rfl,
    @C5_foreign_deferred 1 true
      (ChatSpec.mk true [KeywordSearch.mk 0 [Hit.mk true true 7 2] none])
      initialStats [DeleteOutcome.forbidden]
      (LoopState.mk [] [(7, 0)]
        { initialStats with
          total_checked_api := 1
          total_found_other := 1
          attempted_delete_other := 1
          failed_to_delete_other := 1 }
        [Event.hit (Hit.mk true true 7 2), Event.foreignAttempt 7] [] false)
      rfl⟩

end TCleaner
